import Mathlib

/-!
Whole-file one-bit rotation: a shallow embedding of `rotate_file` from
`main.c`.

* C integers are mathematical integers with the conversions made explicit:
  `int` is 32-bit two's complement, `int8_t` is obtained from an `int` by
  two's-complement narrowing, `>>` on a signed value is the arithmetic shift and
  `fputc` converts its argument to `unsigned char`.
* A `FILE` is a byte list with a position, an error indicator, and a fault
  schedule saying which calls on the stream fail.
* The two streams and the history of stream operations form a `World`, which
  is threaded through the function.
* The driver `main` is embedded over an environment that answers the two
  `fopen` calls.

The definitions come first: the C arithmetic, the streams, `rotate_file`,
`main`, the rotation the specification defines (`spec_left`, `spec_right`) and
the closed forms `left_out` and `right_out`, which `rotate_bytes_left` and
`rotate_bytes_right` prove to be what a run without stream faults writes. The
theorems follow.
-/

namespace Rotate

/-! ## C integer arithmetic -/

/-- An octet. -/
abbrev Byte := Fin 256

/-- The value of the macro `EOF`. -/
def EOF : Int := -1

/-- The macro `LEFT`. -/
def LEFT : Int := 0

/-- The macro `RIGHT`. -/
def RIGHT : Int := 1

/-- Wrap a mathematical integer to the range of `int` (32-bit two's complement). -/
def to_int (x : Int) : Int := (x + 2147483648) % 4294967296 - 2147483648

/-- Conversion of an `int` to `int8_t` (two's-complement narrowing), as performed
by every assignment to one of the `int8_t` locals of `rotate_file`. -/
def to_int8 (x : Int) : Int := (x + 128) % 256 - 128

/-- Conversion of an `int` to `unsigned char`, as performed by `fputc` on its
first argument. -/
def to_uchar (x : Int) : Byte := ⟨(x % 256).toNat, by omega⟩

/-- The C expression `x << n` on an `int`. -/
def shl (x : Int) (n : Nat) : Int := to_int (x * ((2 ^ n : Nat) : Int))

/-- The C expression `x >> n` on an `int`: the arithmetic (sign-propagating)
shift, which rounds towards minus infinity. -/
def shr (x : Int) (n : Nat) : Int := x / ((2 ^ n : Nat) : Int)

/-- The C expression `x | y` on two `int`s: bitwise or of the 32-bit patterns. -/
def bor (x y : Int) : Int :=
  to_int (Int.ofNat (Nat.lor (x % 4294967296).toNat (y % 4294967296).toNat))

/-! ## Streams -/

/-- The enum `ROTATE_RETURN_CODE`. -/
inductive ROTATE_RETURN_CODE where
  | ROTATE_SUCCESS
  | ROTATE_READ_ERROR
  | ROTATE_WRITE_ERROR
  deriving DecidableEq

open ROTATE_RETURN_CODE

/-- A stdio stream: the bytes of the underlying file, the file position, the
error indicator, the number of `fgetc`/`fputc` calls made on the stream so far,
and the fault schedule (`fault k` says that call number `k` on this stream
fails). -/
structure FILE where
  bytes : List Byte
  pos : Nat
  err : Bool
  ops : Nat
  fault : Nat → Bool

/-- One stream operation performed by `rotate_file`. -/
inductive Event where
  /-- An `fgetc(in_file)` that delivered a byte. -/
  | read_byte (b : Byte)
  /-- An `fgetc(in_file)` that met the end of the stream. -/
  | read_eof
  /-- An `fgetc(in_file)` that failed. -/
  | read_error
  /-- An `fputc(_, out_file)` that stored `b` at `offset`. -/
  | write (offset : Nat) (b : Byte)
  /-- An `fputc(_, out_file)` that failed. -/
  | write_error
  /-- The call `rewind(out_file)`. -/
  | rewind_out
  /-- The call `rewind(in_file)`. -/
  | rewind_in
  deriving DecidableEq

/-- The two streams handed to `rotate_file`, with the history of the stream
operations performed so far (oldest first). -/
structure World where
  in_file : FILE
  out_file : FILE
  trace : List Event

/-- The call `ferror(f)`: the error indicator of the stream. -/
def ferror (f : FILE) : Bool := f.err

/-- Store `b` at offset `pos` of a file: overwrite inside the file, extend it at
or past its end (a gap is filled with zero bytes). -/
def write_at (l : List Byte) (pos : Nat) (b : Byte) : List Byte :=
  if pos < l.length then l.set pos b
  else l ++ List.replicate (pos - l.length) 0 ++ [b]

/-- The call `fgetc(in_file)`: the value returned and the world afterwards. A failing call
returns `EOF` and sets the error indicator; at the end of the bytes the call
returns `EOF` and leaves the error indicator alone; otherwise it returns the
byte at the position as a value in 0..255 and advances. -/
def fgetc_in (w : World) : Int × World :=
  if w.in_file.fault w.in_file.ops then
    (EOF, { w with
      in_file := { w.in_file with err := true, ops := w.in_file.ops + 1 },
      trace := w.trace ++ [Event.read_error] })
  else
    match w.in_file.bytes[w.in_file.pos]? with
    | some b =>
      ((b.val : Int), { w with
        in_file := { w.in_file with pos := w.in_file.pos + 1, ops := w.in_file.ops + 1 },
        trace := w.trace ++ [Event.read_byte b] })
    | none =>
      (EOF, { w with
        in_file := { w.in_file with ops := w.in_file.ops + 1 },
        trace := w.trace ++ [Event.read_eof] })

/-- The call `fputc(c, out_file)`: the value returned and the world afterwards. A failing
call returns `EOF`, sets the error indicator and stores nothing; otherwise `c`
converted to `unsigned char` is stored at the position, which advances, and
that byte is returned. -/
def fputc_out (c : Int) (w : World) : Int × World :=
  if w.out_file.fault w.out_file.ops then
    (EOF, { w with
      out_file := { w.out_file with err := true, ops := w.out_file.ops + 1 },
      trace := w.trace ++ [Event.write_error] })
  else
    (((to_uchar c).val : Int), { w with
      out_file := { w.out_file with
        bytes := write_at w.out_file.bytes w.out_file.pos (to_uchar c),
        pos := w.out_file.pos + 1,
        ops := w.out_file.ops + 1 },
      trace := w.trace ++ [Event.write w.out_file.pos (to_uchar c)] })

/-- The call `rewind(out_file)`: position 0, error indicator cleared. -/
def rewind_out (w : World) : World :=
  { w with
    out_file := { w.out_file with pos := 0, err := false },
    trace := w.trace ++ [Event.rewind_out] }

/-- The call `rewind(in_file)`: position 0, error indicator cleared. -/
def rewind_in (w : World) : World :=
  { w with
    in_file := { w.in_file with pos := 0, err := false },
    trace := w.trace ++ [Event.rewind_in] }

/-! ## `rotate_file` -/

/-- How a `while` loop of `rotate_file` ends: by a `return` from inside the body,
or by its condition becoming false, with the value `first_read_byte` then has. -/
inductive Loop where
  | returned (code : ROTATE_RETURN_CODE) (w : World)
  | finished (first_read_byte : Int) (w : World)

/-- Number of loop iterations that always suffices: every iteration that does not
leave the loop consumes one byte of `in_file`. -/
def loop_fuel (w : World) : Nat := w.in_file.bytes.length - w.in_file.pos + 1

/-- The `while` loop of the `LEFT` branch (lines 40-45). -/
def left_loop : Nat → Int → World → Option Loop
  | 0, _, _ => none
  | fuel + 1, first_read_byte, w =>
    let r := fgetc_in w
    let second_read_byte := to_int8 r.1
    if second_read_byte != EOF then
      let first_write_byte :=
        to_int8 (bor (shl first_read_byte 1) (shr second_read_byte 7))
      let p := fputc_out first_write_byte r.2
      if p.1 == EOF && ferror p.2.out_file then
        some (Loop.returned ROTATE_WRITE_ERROR p.2)
      else
        left_loop fuel second_read_byte p.2
    else
      some (Loop.finished first_read_byte r.2)

/-- The `while` loop of the `RIGHT` branch (lines 58-63). -/
def right_loop : Nat → Int → World → Option Loop
  | 0, _, _ => none
  | fuel + 1, first_read_byte, w =>
    let r := fgetc_in w
    let second_read_byte := to_int8 r.1
    if second_read_byte != EOF then
      let first_write_byte :=
        to_int8 (bor (shl first_read_byte 7) (shr second_read_byte 1))
      let p := fputc_out first_write_byte r.2
      if p.1 == EOF && ferror p.2.out_file then
        some (Loop.returned ROTATE_WRITE_ERROR p.2)
      else
        right_loop fuel second_read_byte p.2
    else
      some (Loop.finished first_read_byte r.2)

/-- The function `rotate_file(direction, in_file, out_file)`: the return code and
the world afterwards (`none` only if a loop ran out of iterations, which
`rotate_file_returns` excludes). -/
def rotate_file (direction : Int) (w : World) : Option (ROTATE_RETURN_CODE × World) :=
  let r := fgetc_in w
  let first_read_byte := to_int8 r.1
  if first_read_byte == EOF then
    if ferror r.2.in_file then some (ROTATE_READ_ERROR, r.2)
    else some (ROTATE_SUCCESS, r.2)
  else if direction == LEFT then
    let carried_bit := to_int8 (shr first_read_byte 7)
    match left_loop (loop_fuel r.2) first_read_byte r.2 with
    | none => none
    | some (Loop.returned code w1) => some (code, w1)
    | some (Loop.finished first_read_byte w1) =>
      if ferror w1.in_file then some (ROTATE_READ_ERROR, w1)
      else
        let p := fputc_out (bor (shl first_read_byte 1) carried_bit) w1
        if p.1 == EOF && ferror p.2.out_file then some (ROTATE_WRITE_ERROR, p.2)
        else some (ROTATE_SUCCESS, p.2)
  else
    let dummy_byte : Int := to_int8 0
    let p0 := fputc_out dummy_byte r.2
    if p0.1 == EOF && ferror p0.2.out_file then some (ROTATE_WRITE_ERROR, p0.2)
    else
      match right_loop (loop_fuel p0.2) first_read_byte p0.2 with
      | none => none
      | some (Loop.returned code w1) => some (code, w1)
      | some (Loop.finished first_read_byte w1) =>
        if ferror w1.in_file then some (ROTATE_READ_ERROR, w1)
        else
          let carried_bit := to_int8 (shl first_read_byte 7)
          let w2 := rewind_out w1
          let w3 := rewind_in w2
          let r2 := fgetc_in w3
          let first_read_byte := to_int8 r2.1
          if first_read_byte == EOF && ferror r2.2.in_file then
            some (ROTATE_READ_ERROR, r2.2)
          else
            let p := fputc_out (bor carried_bit (shr first_read_byte 1)) r2.2
            if p.1 == EOF && ferror p.2.out_file then some (ROTATE_WRITE_ERROR, p.2)
            else some (ROTATE_SUCCESS, p.2)

/-! ## Running the rotator on a byte sequence -/

/-- The fault schedule of a stream on which no call fails. -/
def no_fault : Nat → Bool := fun _ => false

/-- The streams as `main` hands them over: `in_file` freshly opened on `input`,
`out_file` freshly opened with mode `w+` (empty), nothing done yet. -/
def open_files (input : List Byte) (in_fault out_fault : Nat → Bool) : World :=
  { in_file := { bytes := input, pos := 0, err := false, ops := 0, fault := in_fault },
    out_file := { bytes := [], pos := 0, err := false, ops := 0, fault := out_fault },
    trace := [] }

/-- Run `rotate_file` on `input` with no stream faults: the return code and the
final content of the output file. -/
def rotate_bytes (direction : Int) (input : List Byte) :
    Option (ROTATE_RETURN_CODE × List Byte) :=
  (rotate_file direction (open_files input no_fault no_fault)).map
    (fun r => (r.1, r.2.out_file.bytes))

/-- Run `rotate_file` (no stream faults) `n` times in direction `direction`, each
run reading the bytes the previous run wrote; `none` as soon as a run does not
return success. -/
def rotate_times (direction : Int) : Nat → List Byte → Option (List Byte)
  | 0, x => some x
  | n + 1, x =>
    match rotate_bytes direction x with
    | some (ROTATE_SUCCESS, y) => rotate_times direction n y
    | _ => none

/-- Run `rotate_file` (no stream faults) in direction `d1` and then in direction
`d2` on what the first run wrote; `none` if a run does not return success. -/
def rotate_then (d1 d2 : Int) (x : List Byte) : Option (List Byte) :=
  match rotate_bytes d1 x with
  | some (ROTATE_SUCCESS, y) =>
    match rotate_bytes d2 y with
    | some (ROTATE_SUCCESS, z) => some z
    | _ => none
  | _ => none

/-! ## The rotation the specification defines -/

/-- Specified LEFT rotation: `c[i] = ((b[i] << 1) | (b[i+1] >> 7)) & 0xFF` for
`i` in `0 .. N-2` and `c[N-1] = ((b[N-1] << 1) | (b[0] >> 7)) & 0xFF`, with
logical shifts on unsigned 8-bit values. -/
def spec_left (b : List Byte) : List Byte :=
  (List.range b.length).map fun i =>
    let next : Byte := if i + 1 < b.length then b.getD (i + 1) 0 else b.getD 0 0
    Fin.ofNat ((((b.getD i 0).val <<< 1) ||| (next.val >>> 7)) &&& 0xFF)

/-- Specified RIGHT rotation: `c[0] = ((b[N-1] << 7) | (b[0] >> 1)) & 0xFF` and
`c[i] = ((b[i-1] << 7) | (b[i] >> 1)) & 0xFF` for `i` in `1 .. N-1`, with logical
shifts on unsigned 8-bit values. -/
def spec_right (b : List Byte) : List Byte :=
  (List.range b.length).map fun i =>
    let prev : Byte := if i = 0 then b.getD (b.length - 1) 0 else b.getD (i - 1) 0
    Fin.ofNat (((prev.val <<< 7) ||| ((b.getD i 0).val >>> 1)) &&& 0xFF)


/-! ## `main` -/

/-- The macro `EXIT_SUCCESS`. -/
def EXIT_SUCCESS : Int := 0

/-- The macro `EXIT_FAILURE`. -/
def EXIT_FAILURE : Int := 1

/-- What `main` finds outside the program: for each path, the bytes of the file
that `fopen(path, "r")` opens (`none` when that call returns `NULL`), whether
`fopen(path, "w+")` succeeds, and the fault schedules of the two streams once
opened. The input path and the output path are taken to name different files. -/
structure Env where
  readable : String → Option (List Byte)
  writable : String → Bool
  in_fault : Nat → Bool
  out_fault : Nat → Bool

/-- The call `fopen(path, "r")`: a stream at the start of the file, or `none` for
`NULL`. -/
def fopen_r (env : Env) (path : String) : Option FILE :=
  (env.readable path).map fun b =>
    { bytes := b, pos := 0, err := false, ops := 0, fault := env.in_fault }

/-- The call `fopen(path, "w+")`: a stream on the file truncated to length zero,
or `none` for `NULL`. -/
def fopen_w (env : Env) (path : String) : Option FILE :=
  if env.writable path then
    some { bytes := [], pos := 0, err := false, ops := 0, fault := env.out_fault }
  else none

/-- The lines `main` prints on the standard error stream, one constructor per
`fprintf` call. -/
inductive Diagnostic where
  | usage
  | invalid_arguments
  | in_file_not_opened
  | out_file_not_opened
  | read_error
  | write_error
  deriving DecidableEq

/-- How a run of `main` ends: the exit status, what was printed on the standard
error stream, and the direction and streams `rotate_file` was called with
(`none` when it was not called). -/
structure Exit where
  status : Int
  stderr : List Diagnostic
  call : Option (Int × World)

/-- The function `main(argc, argv)`, with `argc` the length of `argv` (`none` only
if `rotate_file` does not return, which `rotate_file_returns` excludes). -/
def main (argv : List String) (env : Env) : Option Exit :=
  if argv.length < 4 then
    some { status := EXIT_FAILURE, stderr := [Diagnostic.usage], call := none }
  else if argv.getD 1 "" != "left" && argv.getD 1 "" != "right" then
    some { status := EXIT_FAILURE, stderr := [Diagnostic.invalid_arguments], call := none }
  else
    let direction := if (argv.getD 1 "").front == 'r' then RIGHT else LEFT
    let in_file := fopen_r env (argv.getD 2 "")
    let out_file := fopen_w env (argv.getD 3 "")
    match in_file with
    | none =>
      some { status := EXIT_FAILURE, stderr := [Diagnostic.in_file_not_opened], call := none }
    | some fi =>
      match out_file with
      | none =>
        some { status := EXIT_FAILURE, stderr := [Diagnostic.out_file_not_opened],
               call := none }
      | some fo =>
        let w : World := { in_file := fi, out_file := fo, trace := [] }
        match rotate_file direction w with
        | none => none
        | some (ROTATE_READ_ERROR, _) =>
          some { status := EXIT_FAILURE, stderr := [Diagnostic.read_error],
                 call := some (direction, w) }
        | some (ROTATE_WRITE_ERROR, _) =>
          some { status := EXIT_FAILURE, stderr := [Diagnostic.write_error],
                 call := some (direction, w) }
        | some (ROTATE_SUCCESS, _) =>
          some { status := EXIT_SUCCESS, stderr := [], call := some (direction, w) }

/-! ## Vocabulary for the history of a run -/

/-- Whether a stream operation reported a stream error. -/
def is_error : Event → Bool
  | Event.read_error => true
  | Event.write_error => true
  | _ => false

/-- What a `while` loop of `rotate_file` started in world `w` guarantees about its
outcome. A `return` from the body carries `ROTATE_WRITE_ERROR` and the failed
write is the last operation. When the condition becomes false the last
operation is a read, and the error indicator of `in_file` is set if that read
failed and is as in `w` otherwise. No earlier operation of the loop reported an
error. -/
def loop_post (w : World) : Loop → Prop
  | Loop.returned code w1 =>
    code = ROTATE_WRITE_ERROR ∧
      ∃ pre, w1.trace = w.trace ++ pre ++ [Event.write_error] ∧
        ∀ e ∈ pre, is_error e = false
  | Loop.finished _ w1 =>
    ∃ pre last, w1.trace = w.trace ++ pre ++ [last] ∧
      (∀ e ∈ pre, is_error e = false) ∧ last ≠ Event.write_error ∧
      (last = Event.read_error → w1.in_file.err = true) ∧
      (last ≠ Event.read_error → w1.in_file.err = w.in_file.err)

/-! ## The output of a run without stream faults, in closed form

These definitions are not read off the source: they state, byte by byte, what
the theorems `rotate_bytes_left` and `rotate_bytes_right` prove `rotate_file`
to write. -/

/-- The bytes of `l` before its first `0xFF` byte (all of `l` if there is none). -/
def before_ff (l : List Byte) : List Byte := l.takeWhile (fun b => b != 255)

/-- The byte `0xFF` when the byte `b` that follows `a` (cyclically) has its top bit
set, and `(a << 1) & 0xFF` otherwise. -/
def left_byte (a b : Byte) : Byte :=
  if 128 ≤ b.val then 255 else Fin.ofNat ((a.val <<< 1) &&& 0xFF)

/-- The byte `(((a << 7) | (b >> 1)) & 0xFF) | (b & 0x80)`, for a byte `b` and the
byte `a` that precedes it (cyclically). -/
def right_byte (a b : Byte) : Byte :=
  Fin.ofNat ((((a.val <<< 7) ||| (b.val >>> 1)) &&& 0xFF) ||| (b.val &&& 0x80))

/-- Byte `i` is `left_byte p[i] p[(i+1) mod N]`. -/
def left_out : List Byte → List Byte
  | [] => []
  | a :: t => List.zipWith left_byte (a :: t) (t ++ [a])

/-- Byte `i` is `right_byte p[(i-1) mod N] p[i]`. -/
def right_out : List Byte → List Byte
  | [] => []
  | a :: t => List.zipWith right_byte (t.getLastD a :: a :: t) (a :: t)

/-! ## Basic facts about the stream operations -/

theorem to_int8_EOF : to_int8 EOF = EOF := by decide

theorem fputc_out_in_file (c : Int) (w : World) :
    (fputc_out c w).2.in_file = w.in_file := by
  unfold fputc_out
  split <;> rfl

theorem fgetc_in_out_file (w : World) : (fgetc_in w).2.out_file = w.out_file := by
  unfold fgetc_in
  split
  · rfl
  · split <;> rfl

theorem fgetc_in_bytes (w : World) :
    (fgetc_in w).2.in_file.bytes = w.in_file.bytes := by
  unfold fgetc_in
  split
  · rfl
  · split <;> rfl

/-- A read that does not return `EOF` has advanced the position by one, inside
the bytes of the file. -/
theorem fgetc_in_pos (w : World) (h : to_int8 (fgetc_in w).1 ≠ EOF) :
    (fgetc_in w).2.in_file.pos = w.in_file.pos + 1 ∧
      w.in_file.pos < w.in_file.bytes.length := by
  unfold fgetc_in at h ⊢
  cases hf : w.in_file.fault w.in_file.ops with
  | true =>
    rw [hf] at h
    exact absurd to_int8_EOF h
  | false =>
    rw [hf] at h
    cases hb : w.in_file.bytes[w.in_file.pos]? with
    | none =>
      rw [hb] at h
      exact absurd to_int8_EOF h
    | some b =>
      refine ⟨by simp, ?_⟩
      exact (List.getElem?_eq_some_iff.mp hb).1

theorem left_loop_returns (fuel : Nat) (first_read_byte : Int) (w : World)
    (h : w.in_file.bytes.length - w.in_file.pos < fuel) :
    (left_loop fuel first_read_byte w).isSome = true := by
  induction fuel generalizing first_read_byte w with
  | zero => omega
  | succ n ih =>
    unfold left_loop
    by_cases hc : to_int8 (fgetc_in w).1 = EOF
    · simp [hc]
    · have hp := fgetc_in_pos w hc
      have hb := fgetc_in_bytes w
      simp only [bne_iff_ne, ne_eq, hc, not_false_eq_true, if_true]
      split
      · rfl
      · apply ih
        rw [fputc_out_in_file, hb, hp.1]
        omega

theorem right_loop_returns (fuel : Nat) (first_read_byte : Int) (w : World)
    (h : w.in_file.bytes.length - w.in_file.pos < fuel) :
    (right_loop fuel first_read_byte w).isSome = true := by
  induction fuel generalizing first_read_byte w with
  | zero => omega
  | succ n ih =>
    unfold right_loop
    by_cases hc : to_int8 (fgetc_in w).1 = EOF
    · simp [hc]
    · have hp := fgetc_in_pos w hc
      have hb := fgetc_in_bytes w
      simp only [bne_iff_ne, ne_eq, hc, not_false_eq_true, if_true]
      split
      · rfl
      · apply ih
        rw [fputc_out_in_file, hb, hp.1]
        omega

/-- The function `rotate_file` returns on every direction and every world: no
loop runs out of iterations. -/
theorem rotate_file_returns (direction : Int) (w : World) :
    (rotate_file direction w).isSome = true := by
  have hl := left_loop_returns (loop_fuel (fgetc_in w).2)
    (to_int8 (fgetc_in w).1) (fgetc_in w).2 (by unfold loop_fuel; omega)
  have hr := fun c => right_loop_returns (loop_fuel (fputc_out c (fgetc_in w).2).2)
    (to_int8 (fgetc_in w).1) (fputc_out c (fgetc_in w).2).2 (by unfold loop_fuel; omega)
  unfold rotate_file
  simp only
  split
  · split <;> rfl
  · split
    · revert hl
      cases left_loop (loop_fuel (fgetc_in w).2) (to_int8 (fgetc_in w).1) (fgetc_in w).2 with
      | none => intro hl; simp at hl
      | some l =>
        intro _
        cases l with
        | returned code w1 => rfl
        | finished fb w1 =>
          simp only
          split
          · rfl
          · split <;> rfl
    · split
      · rfl
      · have hr0 := hr (to_int8 0)
        revert hr0
        cases right_loop (loop_fuel (fputc_out (to_int8 0) (fgetc_in w).2).2)
            (to_int8 (fgetc_in w).1) (fputc_out (to_int8 0) (fgetc_in w).2).2 with
        | none => intro hr0; simp at hr0
        | some l =>
          intro _
          cases l with
          | returned code w1 => rfl
          | finished fb w1 =>
            simp only
            split
            · rfl
            · split
              · rfl
              · split <;> rfl

/-! ## The claims -/

/-- Claim C1 (LEFT rotation correctness) against the code: on the two input bytes
`0x81 0x00`, with no stream faults, `rotate_file(LEFT)` returns success and
writes `0x02 0xFF`, whereas the specified LEFT rotation of that input is
`0x02 0x01`: the carried bit `first_read_byte >> 7` of an `int8_t` holding `0x81`
is `-1`, not `1`. -/
theorem left_0x81_0x00_writes_0x02_0xFF :
    rotate_bytes LEFT [0x81, 0x00] = some (ROTATE_SUCCESS, [0x02, 0xFF]) ∧
      spec_left [0x81, 0x00] = [0x02, 0x01] := by
  decide

/-- Claim C2 (RIGHT rotation correctness) against the code: on the two input
bytes `0x00 0x80`, with no stream faults, `rotate_file(RIGHT)` returns success
and leaves `0x00 0xC0` in the output, whereas the specified RIGHT rotation of
that input is `0x00 0x40`: `second_read_byte >> 1` of an `int8_t` holding `0x80`
copies the sign bit. -/
theorem right_0x00_0x80_writes_0x00_0xC0 :
    rotate_bytes RIGHT [0x00, 0x80] = some (ROTATE_SUCCESS, [0x00, 0xC0]) ∧
      spec_right [0x00, 0x80] = [0x00, 0x40] := by
  decide

/-- Claim C3 (length preservation) against the code: on the three input bytes
`0x41 0xFF 0x42`, with no stream faults, `rotate_file` returns success in both
directions with an output of one byte, not three: the byte `0xFF` stored in an
`int8_t` compares equal to `EOF`. -/
theorem output_shorter_than_input :
    rotate_bytes LEFT [0x41, 0xFF, 0x42] = some (ROTATE_SUCCESS, [0x82]) ∧
      rotate_bytes RIGHT [0x41, 0xFF, 0x42] = some (ROTATE_SUCCESS, [0xA0]) ∧
      [(0x41 : Byte), 0xFF, 0x42].length ≠ [(0x82 : Byte)].length := by
  decide

/-- Claim C4 (inverse law) against the code: starting from `0x81 0x00`, LEFT
followed by RIGHT yields the single byte `0x01`, and RIGHT followed by LEFT
yields `0xFF 0xFF`; neither is `0x81 0x00`. -/
theorem left_right_not_inverse :
    rotate_then LEFT RIGHT [0x81, 0x00] = some [0x01] ∧
      rotate_then RIGHT LEFT [0x81, 0x00] = some [0xFF, 0xFF] := by
  decide

/-- Claim C5 (eight-cycle law) against the code: eight successive runs of
`rotate_file` on the one-byte input `0x80` end with an empty file, in the LEFT
and in the RIGHT direction, instead of reproducing `0x80`. -/
theorem eight_rotations_lose_the_file :
    rotate_times LEFT 8 [0x80] = some [] ∧ rotate_times RIGHT 8 [0x80] = some [] := by
  decide

/-- Claim C6 (empty input): in every direction, when the input has no bytes, the
first read does not fail, the error indicator of the input is clear and the
output file is empty, `rotate_file` returns success, leaves the output stream
as it was (no write, no rewind: the only operation performed is the one read
that met the end of the stream) and the output is empty. -/
theorem empty_input_success_no_write (direction : Int) (w : World)
    (hN : w.in_file.bytes = []) (hfault : w.in_file.fault w.in_file.ops = false)
    (herr : w.in_file.err = false) (hout : w.out_file.bytes = []) :
    ∃ w' : World, rotate_file direction w = some (ROTATE_SUCCESS, w') ∧
      w'.trace = w.trace ++ [Event.read_eof] ∧
      w'.out_file = w.out_file ∧ w'.out_file.bytes = [] := by
  refine ⟨{ w with
      in_file := { w.in_file with ops := w.in_file.ops + 1 },
      trace := w.trace ++ [Event.read_eof] }, ?_, rfl, rfl, hout⟩
  have hr : fgetc_in w = (EOF, { w with
      in_file := { w.in_file with ops := w.in_file.ops + 1 },
      trace := w.trace ++ [Event.read_eof] }) := by
    unfold fgetc_in
    rw [hfault, hN]
    rfl
  unfold rotate_file
  simp only [hr, to_int8_EOF, ferror, herr]
  rfl

theorem empty_input_success_no_write_witness :
    ∃ w' : World, rotate_file RIGHT (open_files [] no_fault no_fault) =
        some (ROTATE_SUCCESS, w') ∧
      w'.trace = (open_files [] no_fault no_fault).trace ++ [Event.read_eof] ∧
      w'.out_file = (open_files [] no_fault no_fault).out_file ∧
      w'.out_file.bytes = [] :=
  empty_input_success_no_write RIGHT (open_files [] no_fault no_fault) rfl rfl rfl rfl

/-- Claim C7 (single-byte LEFT) against the code: for the one-byte inputs `0x80`
and `0b10110001`, `rotate_file(LEFT)` writes the byte `0xFF`, whereas
`((b << 1) | (b >> 7)) & 0xFF` on the unsigned value is `0x01` and `0b01100011`. -/
theorem single_byte_left_sign_extends :
    rotate_bytes LEFT [0x80] = some (ROTATE_SUCCESS, [0xFF]) ∧
      spec_left [0x80] = [0x01] ∧
      rotate_bytes LEFT [0b10110001] = some (ROTATE_SUCCESS, [0xFF]) ∧
      spec_left [0b10110001] = [0b01100011] := by
  decide

/-- Claim C8 (single-byte RIGHT) against the code: for the one-byte input `0x80`,
`rotate_file(RIGHT)` leaves the byte `0xC0` in the output, whereas
`((b << 7) | (b >> 1)) & 0xFF` with a zero-filling shift is `0x40`. -/
theorem single_byte_right_sign_extends :
    rotate_bytes RIGHT [0x80] = some (ROTATE_SUCCESS, [0xC0]) ∧
      spec_right [0x80] = [0x40] := by
  decide

/-- Claim C9 (all-ones fixed point) against the code: on the input
`0xFF 0xFF 0xFF`, `rotate_file` returns success with an empty output in both
directions, whereas the specified rotation of that input is `0xFF 0xFF 0xFF`. -/
theorem all_ones_gives_empty_output :
    rotate_bytes LEFT [0xFF, 0xFF, 0xFF] = some (ROTATE_SUCCESS, []) ∧
      rotate_bytes RIGHT [0xFF, 0xFF, 0xFF] = some (ROTATE_SUCCESS, []) ∧
      spec_left [0xFF, 0xFF, 0xFF] = [0xFF, 0xFF, 0xFF] ∧
      spec_right [0xFF, 0xFF, 0xFF] = [0xFF, 0xFF, 0xFF] := by
  decide

/-- Claim C10 (read error on the first read): in every direction, if the first
`fgetc(in_file)` fails (it returns `EOF` with the error indicator set and
consumes nothing), `rotate_file` returns `ROTATE_READ_ERROR`, and the output
stream is as it was: the failed read is the only operation performed. -/
theorem first_read_error_returns_read_error (direction : Int) (w : World)
    (hfault : w.in_file.fault w.in_file.ops = true) :
    ∃ w' : World, rotate_file direction w = some (ROTATE_READ_ERROR, w') ∧
      w'.trace = w.trace ++ [Event.read_error] ∧
      w'.out_file = w.out_file ∧ w'.in_file.pos = w.in_file.pos := by
  refine ⟨{ w with
      in_file := { w.in_file with err := true, ops := w.in_file.ops + 1 },
      trace := w.trace ++ [Event.read_error] }, ?_, rfl, rfl, rfl⟩
  have hr : fgetc_in w = (EOF, { w with
      in_file := { w.in_file with err := true, ops := w.in_file.ops + 1 },
      trace := w.trace ++ [Event.read_error] }) := by
    unfold fgetc_in
    rw [hfault]
    rfl
  unfold rotate_file
  simp only [hr, to_int8_EOF, ferror]
  rfl

theorem first_read_error_returns_read_error_witness :
    (open_files [0x41, 0x42] (fun k => k == 0) no_fault).in_file.fault
        (open_files [0x41, 0x42] (fun k => k == 0) no_fault).in_file.ops = true ∧
    ∃ w' : World,
      rotate_file LEFT (open_files [0x41, 0x42] (fun k => k == 0) no_fault) =
        some (ROTATE_READ_ERROR, w') ∧
      w'.trace = (open_files [0x41, 0x42] (fun k => k == 0) no_fault).trace ++
        [Event.read_error] ∧
      w'.out_file = (open_files [0x41, 0x42] (fun k => k == 0) no_fault).out_file ∧
      w'.in_file.pos = (open_files [0x41, 0x42] (fun k => k == 0) no_fault).in_file.pos :=
  ⟨rfl, first_read_error_returns_read_error LEFT
    (open_files [0x41, 0x42] (fun k => k == 0) no_fault) rfl⟩

/-! ## The driver -/

theorem main_too_few (argv : List String) (env : Env) (h : argv.length < 4) :
    main argv env =
      some { status := EXIT_FAILURE, stderr := [Diagnostic.usage], call := none } := by
  unfold main
  rw [if_pos h]

theorem main_token_test (tok : String) :
    (tok != "left" && tok != "right") = true ↔ tok ≠ "left" ∧ tok ≠ "right" := by
  rw [Bool.and_eq_true, bne_iff_ne, bne_iff_ne]

theorem main_bad_token (argv : List String) (env : Env) (h : ¬ argv.length < 4)
    (hl : argv.getD 1 "" ≠ "left") (hr : argv.getD 1 "" ≠ "right") :
    main argv env =
      some { status := EXIT_FAILURE, stderr := [Diagnostic.invalid_arguments],
             call := none } := by
  unfold main
  rw [if_neg h, if_pos ((main_token_test _).mpr ⟨hl, hr⟩)]

/-- The direction `main` computes from a valid token: `RIGHT` for `right`, `LEFT`
for `left`. -/
theorem main_direction (tok : String) (h : tok = "left" ∨ tok = "right") :
    (if tok.front == 'r' then RIGHT else LEFT) = (if tok = "right" then RIGHT else LEFT) := by
  rcases h with h | h <;> subst h <;> decide

theorem main_in_fails (argv : List String) (env : Env) (h : ¬ argv.length < 4)
    (htok : argv.getD 1 "" = "left" ∨ argv.getD 1 "" = "right")
    (hfi : fopen_r env (argv.getD 2 "") = none) :
    main argv env =
      some { status := EXIT_FAILURE, stderr := [Diagnostic.in_file_not_opened],
             call := none } := by
  unfold main
  rw [if_neg h, if_neg (fun hb => by
    have := (main_token_test _).mp hb
    rcases htok with h1 | h1
    · exact this.1 h1
    · exact this.2 h1)]
  simp only [hfi]

theorem main_out_fails (argv : List String) (env : Env) (h : ¬ argv.length < 4)
    (htok : argv.getD 1 "" = "left" ∨ argv.getD 1 "" = "right") (fi : FILE)
    (hfi : fopen_r env (argv.getD 2 "") = some fi)
    (hfo : fopen_w env (argv.getD 3 "") = none) :
    main argv env =
      some { status := EXIT_FAILURE, stderr := [Diagnostic.out_file_not_opened],
             call := none } := by
  unfold main
  rw [if_neg h, if_neg (fun hb => by
    have := (main_token_test _).mp hb
    rcases htok with h1 | h1
    · exact this.1 h1
    · exact this.2 h1)]
  simp only [hfi, hfo]

theorem main_runs (argv : List String) (env : Env) (h : ¬ argv.length < 4)
    (htok : argv.getD 1 "" = "left" ∨ argv.getD 1 "" = "right") (fi fo : FILE)
    (hfi : fopen_r env (argv.getD 2 "") = some fi)
    (hfo : fopen_w env (argv.getD 3 "") = some fo)
    (code : ROTATE_RETURN_CODE) (w' : World)
    (hrun : rotate_file (if argv.getD 1 "" = "right" then RIGHT else LEFT)
      { in_file := fi, out_file := fo, trace := [] } = some (code, w')) :
    ∃ r : Exit, main argv env = some r ∧
      r.status = (if code = ROTATE_SUCCESS then EXIT_SUCCESS else EXIT_FAILURE) ∧
      r.call = some (if argv.getD 1 "" = "right" then RIGHT else LEFT,
        { in_file := fi, out_file := fo, trace := [] }) := by
  unfold main
  rw [if_neg h, if_neg (fun hb => by
    have := (main_token_test _).mp hb
    rcases htok with h1 | h1
    · exact this.1 h1
    · exact this.2 h1)]
  simp only [hfi, hfo, main_direction _ htok, hrun]
  cases code <;> exact ⟨_, rfl, rfl, rfl⟩

/-- Claim C14 (driver exit status): `main` always returns, with status
`EXIT_SUCCESS` or `EXIT_FAILURE`. The status is 0 exactly when there are at
least three arguments after the program name, the direction token is `left` or
`right`, both `fopen` calls succeed and `rotate_file`, called on the opened
streams with `RIGHT` for the token `right` and `LEFT` for `left`, returns
`ROTATE_SUCCESS`. With missing arguments or another token `rotate_file` is not
called, and whenever it is called the direction is `RIGHT` exactly for the
token `right` and `LEFT` exactly for `left`. -/
theorem main_exit_status (argv : List String) (env : Env) :
    ∃ r : Exit, main argv env = some r ∧
      (r.status = EXIT_SUCCESS ∨ r.status = EXIT_FAILURE) ∧
      (r.status = 0 ↔
        4 ≤ argv.length ∧ (argv.getD 1 "" = "left" ∨ argv.getD 1 "" = "right") ∧
        ∃ fi fo w', fopen_r env (argv.getD 2 "") = some fi ∧
          fopen_w env (argv.getD 3 "") = some fo ∧
          rotate_file (if argv.getD 1 "" = "right" then RIGHT else LEFT)
            { in_file := fi, out_file := fo, trace := [] } = some (ROTATE_SUCCESS, w')) ∧
      (argv.length < 4 → r.call = none) ∧
      (argv.getD 1 "" ≠ "left" → argv.getD 1 "" ≠ "right" → r.call = none) ∧
      (∀ d w, r.call = some (d, w) →
        (d = RIGHT ↔ argv.getD 1 "" = "right") ∧ (d = LEFT ↔ argv.getD 1 "" = "left")) := by
  by_cases hlen : argv.length < 4
  · refine ⟨_, main_too_few argv env hlen, Or.inr rfl, ?_, fun _ => rfl, fun _ _ => rfl, ?_⟩
    · constructor
      · intro h; exact absurd h (by decide)
      · rintro ⟨h, -⟩; omega
    · intro d w h; exact absurd h (by simp)
  · by_cases htok : argv.getD 1 "" = "left" ∨ argv.getD 1 "" = "right"
    · have hdir : ∀ d : Int, d = (if argv.getD 1 "" = "right" then RIGHT else LEFT) →
          (d = RIGHT ↔ argv.getD 1 "" = "right") ∧ (d = LEFT ↔ argv.getD 1 "" = "left") := by
        intro d hd
        rcases htok with h1 | h1 <;> rw [h1] at hd ⊢ <;> subst hd <;> decide
      cases hfi : fopen_r env (argv.getD 2 "") with
      | none =>
        refine ⟨_, main_in_fails argv env hlen htok hfi, Or.inr rfl, ?_, fun _ => rfl,
          fun _ _ => rfl, ?_⟩
        · constructor
          · intro h; exact absurd h (by decide)
          · rintro ⟨-, -, fi, fo, w', h, -⟩; exact absurd h (by simp)
        · intro d w h; exact absurd h (by simp)
      | some fi =>
        cases hfo : fopen_w env (argv.getD 3 "") with
        | none =>
          refine ⟨_, main_out_fails argv env hlen htok fi hfi hfo, Or.inr rfl, ?_,
            fun _ => rfl, fun _ _ => rfl, ?_⟩
          · constructor
            · intro h; exact absurd h (by decide)
            · rintro ⟨-, -, fi, fo, w', -, h, -⟩; exact absurd h (by simp)
          · intro d w h; exact absurd h (by simp)
        | some fo =>
          have hret := rotate_file_returns (if argv.getD 1 "" = "right" then RIGHT else LEFT)
            { in_file := fi, out_file := fo, trace := [] }
          cases hrun : rotate_file (if argv.getD 1 "" = "right" then RIGHT else LEFT)
            { in_file := fi, out_file := fo, trace := [] } with
          | none => rw [hrun] at hret; exact absurd hret (by decide)
          | some res =>
            obtain ⟨code, w'⟩ := res
            obtain ⟨r, hr, hst, hcall⟩ := main_runs argv env hlen htok fi fo hfi hfo code w' hrun
            refine ⟨r, hr, ?_, ?_, fun h => absurd h hlen,
              fun h1 h2 => absurd htok (fun h => h.elim h1 h2), ?_⟩
            · rw [hst]
              by_cases hc : code = ROTATE_SUCCESS
              · rw [if_pos hc]; exact Or.inl rfl
              · rw [if_neg hc]; exact Or.inr rfl
            · rw [hst]
              constructor
              · intro h0
                have hc : code = ROTATE_SUCCESS := by
                  by_contra hne
                  rw [if_neg hne] at h0
                  exact absurd h0 (by decide)
                subst hc
                exact ⟨by omega, htok, fi, fo, w', rfl, rfl, hrun⟩
              · rintro ⟨-, -, fi2, fo2, w2, h1, h2, h3⟩
                have e1 : fi2 = fi := (Option.some.inj h1).symm
                have e2 : fo2 = fo := (Option.some.inj h2).symm
                subst e1; subst e2
                rw [hrun] at h3
                have hc : code = ROTATE_SUCCESS := congrArg Prod.fst (Option.some.inj h3)
                rw [if_pos hc]
                rfl
            · intro d w h
              rw [hcall] at h
              exact hdir d (congrArg Prod.fst (Option.some.inj h)).symm
    · have hl : argv.getD 1 "" ≠ "left" := fun h => htok (Or.inl h)
      have hr : argv.getD 1 "" ≠ "right" := fun h => htok (Or.inr h)
      refine ⟨_, main_bad_token argv env hlen hl hr, Or.inr rfl, ?_, fun _ => rfl,
        fun _ _ => rfl, ?_⟩
      · constructor
        · intro h; exact absurd h (by decide)
        · rintro ⟨-, h, -⟩; exact absurd h htok
      · intro d w h; exact absurd h (by simp)

/-! ## The history of a run under arbitrary fault schedules -/

theorem fgetc_in_event (w : World) :
    ∃ e, (fgetc_in w).2.trace = w.trace ++ [e] ∧ e ≠ Event.write_error ∧
      (e = Event.read_error → (fgetc_in w).2.in_file.err = true ∧ (fgetc_in w).1 = EOF) ∧
      (e ≠ Event.read_error → (fgetc_in w).2.in_file.err = w.in_file.err) := by
  unfold fgetc_in
  cases hf : w.in_file.fault w.in_file.ops with
  | true =>
    exact ⟨Event.read_error, rfl, by simp, fun _ => ⟨rfl, rfl⟩, fun h => absurd rfl h⟩
  | false =>
    cases hb : w.in_file.bytes[w.in_file.pos]? with
    | none => exact ⟨Event.read_eof, rfl, by simp, by simp, fun _ => rfl⟩
    | some b => exact ⟨Event.read_byte b, rfl, by simp, by simp, fun _ => rfl⟩

theorem fputc_out_event (c : Int) (w : World) :
    (((fputc_out c w).1 == EOF && ferror (fputc_out c w).2.out_file) = true ∧
        (fputc_out c w).2.trace = w.trace ++ [Event.write_error]) ∨
      (((fputc_out c w).1 == EOF && ferror (fputc_out c w).2.out_file) = false ∧
        ∃ e, (fputc_out c w).2.trace = w.trace ++ [e] ∧ is_error e = false) := by
  unfold fputc_out
  cases hf : w.out_file.fault w.out_file.ops with
  | true => exact Or.inl ⟨rfl, rfl⟩
  | false =>
    refine Or.inr ⟨?_, _, rfl, rfl⟩
    have h : (((to_uchar c).val : Int) == EOF) = false := by
      rw [beq_eq_false_iff_ne]
      unfold EOF
      omega
    simp only [Bool.false_eq_true, if_false, h, Bool.false_and]

theorem loop_post_step (w w2 : World) (e1 e2 : Event) (res : Loop)
    (htr : w2.trace = w.trace ++ [e1] ++ [e2]) (h1 : is_error e1 = false)
    (h2 : is_error e2 = false) (herr : w2.in_file.err = w.in_file.err)
    (h : loop_post w2 res) : loop_post w res := by
  cases res with
  | returned code w1 =>
    obtain ⟨hc, pre, hpre, hq⟩ := h
    refine ⟨hc, e1 :: e2 :: pre, ?_, ?_⟩
    · rw [hpre, htr]; simp
    · intro e he
      simp only [List.mem_cons] at he
      rcases he with rfl | rfl | he
      · exact h1
      · exact h2
      · exact hq e he
  | finished fb w1 =>
    obtain ⟨pre, last, hpre, hq, hw, hr, hn⟩ := h
    refine ⟨e1 :: e2 :: pre, last, ?_, ?_, hw, hr, fun hl => (hn hl).trans herr⟩
    · rw [hpre, htr]; simp
    · intro e he
      simp only [List.mem_cons] at he
      rcases he with rfl | rfl | he
      · exact h1
      · exact h2
      · exact hq e he

theorem left_loop_trace (fuel : Nat) (first_read_byte : Int) (w : World)
    (h : w.in_file.bytes.length - w.in_file.pos < fuel) :
    ∃ res, left_loop fuel first_read_byte w = some res ∧ loop_post w res := by
  induction fuel generalizing first_read_byte w with
  | zero => omega
  | succ n ih =>
    unfold left_loop
    obtain ⟨e, he, hew, her, hen⟩ := fgetc_in_event w
    by_cases hc : to_int8 (fgetc_in w).1 = EOF
    · refine ⟨Loop.finished first_read_byte (fgetc_in w).2, by simp [hc], ?_⟩
      exact ⟨[], e, by simpa using he, by simp, hew, fun h => (her h).1, hen⟩
    · have hp := fgetc_in_pos w hc
      have hb := fgetc_in_bytes w
      have hne : e ≠ Event.read_error := fun h => hc (by rw [(her h).2]; exact to_int8_EOF)
      have he1 : is_error e = false := by
        cases e <;> first | rfl | exact absurd rfl hne | exact absurd rfl hew
      simp only [bne_iff_ne, ne_eq, hc, not_false_eq_true, if_true]
      rcases fputc_out_event
        (to_int8 (bor (shl first_read_byte 1) (shr (to_int8 (fgetc_in w).1) 7)))
        (fgetc_in w).2 with ⟨ht, htr⟩ | ⟨ht, e2, htr, he2⟩
      · rw [if_pos ht]
        refine ⟨_, rfl, rfl, [e], ?_, ?_⟩
        · rw [htr, he]
        · intro x hx
          rw [List.mem_singleton] at hx
          rw [hx]; exact he1
      · rw [if_neg (by rw [ht]; decide)]
        obtain ⟨res, hres, hpost⟩ := ih (to_int8 (fgetc_in w).1)
          (fputc_out (to_int8 (bor (shl first_read_byte 1) (shr (to_int8 (fgetc_in w).1) 7)))
            (fgetc_in w).2).2 (by rw [fputc_out_in_file, hb, hp.1]; omega)
        refine ⟨res, hres, loop_post_step w _ e e2 res ?_ he1 he2 ?_ hpost⟩
        · rw [htr, he]
        · rw [fputc_out_in_file]; exact hen hne

theorem right_loop_trace (fuel : Nat) (first_read_byte : Int) (w : World)
    (h : w.in_file.bytes.length - w.in_file.pos < fuel) :
    ∃ res, right_loop fuel first_read_byte w = some res ∧ loop_post w res := by
  induction fuel generalizing first_read_byte w with
  | zero => omega
  | succ n ih =>
    unfold right_loop
    obtain ⟨e, he, hew, her, hen⟩ := fgetc_in_event w
    by_cases hc : to_int8 (fgetc_in w).1 = EOF
    · refine ⟨Loop.finished first_read_byte (fgetc_in w).2, by simp [hc], ?_⟩
      exact ⟨[], e, by simpa using he, by simp, hew, fun h => (her h).1, hen⟩
    · have hp := fgetc_in_pos w hc
      have hb := fgetc_in_bytes w
      have hne : e ≠ Event.read_error := fun h => hc (by rw [(her h).2]; exact to_int8_EOF)
      have he1 : is_error e = false := by
        cases e <;> first | rfl | exact absurd rfl hne | exact absurd rfl hew
      simp only [bne_iff_ne, ne_eq, hc, not_false_eq_true, if_true]
      rcases fputc_out_event
        (to_int8 (bor (shl first_read_byte 7) (shr (to_int8 (fgetc_in w).1) 1)))
        (fgetc_in w).2 with ⟨ht, htr⟩ | ⟨ht, e2, htr, he2⟩
      · rw [if_pos ht]
        refine ⟨_, rfl, rfl, [e], ?_, ?_⟩
        · rw [htr, he]
        · intro x hx
          rw [List.mem_singleton] at hx
          rw [hx]; exact he1
      · rw [if_neg (by rw [ht]; decide)]
        obtain ⟨res, hres, hpost⟩ := ih (to_int8 (fgetc_in w).1)
          (fputc_out (to_int8 (bor (shl first_read_byte 7) (shr (to_int8 (fgetc_in w).1) 1)))
            (fgetc_in w).2).2 (by rw [fputc_out_in_file, hb, hp.1]; omega)
        refine ⟨res, hres, loop_post_step w _ e e2 res ?_ he1 he2 ?_ hpost⟩
        · rw [htr, he]
        · rw [fputc_out_in_file]; exact hen hne

theorem is_error_false_of_ne (e : Event) (h1 : e ≠ Event.read_error)
    (h2 : e ≠ Event.write_error) : is_error e = false := by
  cases e <;> first | rfl | exact absurd rfl h1 | exact absurd rfl h2

theorem ne_of_is_error_false (e : Event) (h : is_error e = false) :
    e ≠ Event.read_error ∧ e ≠ Event.write_error := by
  constructor <;> intro he <;> rw [he] at h <;> exact absurd h (by decide)

/-- The history of a run of `rotate_file` from any world, under any fault
schedules: the function returns, only the last operation of the run can have
reported an error, a failed read as last operation gives `ROTATE_READ_ERROR`,
a failed write as last operation gives `ROTATE_WRITE_ERROR`, and a run without
a failed operation, started with a clear error indicator on `in_file`, gives
`ROTATE_SUCCESS`. -/
theorem rotate_file_trace (direction : Int) (w : World) :
    ∃ code w' pre last, rotate_file direction w = some (code, w') ∧
      w'.trace = w.trace ++ pre ++ [last] ∧
      (∀ e ∈ pre, is_error e = false) ∧
      (last = Event.read_error → code = ROTATE_READ_ERROR) ∧
      (last = Event.write_error → code = ROTATE_WRITE_ERROR) ∧
      (is_error last = false → w.in_file.err = false → code = ROTATE_SUCCESS) := by
  obtain ⟨e0, he0, hw0, hr0, hn0⟩ := fgetc_in_event w
  have hfuel : ∀ w1 : World, w1.in_file.bytes.length - w1.in_file.pos < loop_fuel w1 :=
    fun w1 => by unfold loop_fuel; omega
  unfold rotate_file
  simp only []
  by_cases hc : to_int8 (fgetc_in w).1 = EOF
  · simp only [hc, beq_self_eq_true, if_true]
    by_cases herr : ferror (fgetc_in w).2.in_file = true
    · rw [if_pos herr]
      refine ⟨ROTATE_READ_ERROR, _, [], e0, rfl, by simpa using he0, by simp, fun _ => rfl,
        fun h => absurd h hw0, ?_⟩
      intro hq hwerr
      have h1 := hn0 (ne_of_is_error_false e0 hq).1
      unfold ferror at herr
      rw [h1, hwerr] at herr
      exact absurd herr (by decide)
    · rw [if_neg herr]
      refine ⟨ROTATE_SUCCESS, _, [], e0, rfl, by simpa using he0, by simp, ?_,
        fun h => absurd h hw0, fun _ _ => rfl⟩
      intro h
      exact absurd (hr0 h).1 herr
  · have hne0 : e0 ≠ Event.read_error :=
      fun h => hc (by rw [(hr0 h).2]; exact to_int8_EOF)
    have hq0 : is_error e0 = false := is_error_false_of_ne e0 hne0 hw0
    have herr0 : (fgetc_in w).2.in_file.err = w.in_file.err := hn0 hne0
    have hbeq : (to_int8 (fgetc_in w).1 == EOF) = false := by
      rw [beq_eq_false_iff_ne]; exact hc
    simp only [hbeq, Bool.false_eq_true, if_false]
    split
    · -- LEFT
      obtain ⟨res, hres, hpost⟩ := left_loop_trace (loop_fuel (fgetc_in w).2)
        (to_int8 (fgetc_in w).1) (fgetc_in w).2 (hfuel _)
      rw [hres]
      cases res with
      | returned code w1 =>
        obtain ⟨hcode, pre, hpre, hq⟩ := hpost
        refine ⟨code, w1, e0 :: pre, Event.write_error, rfl, by rw [hpre, he0]; simp, ?_,
          fun h => absurd h (by simp), fun _ => hcode, fun h => absurd h (by decide)⟩
        intro e he
        rcases List.mem_cons.mp he with rfl | he
        · exact hq0
        · exact hq e he
      | finished fb w1 =>
        obtain ⟨pre, last, hpre, hq, hlw, hlr, hln⟩ := hpost
        simp only []
        have hpre0 : ∀ e ∈ e0 :: pre, is_error e = false := by
          intro e he
          rcases List.mem_cons.mp he with rfl | he
          · exact hq0
          · exact hq e he
        by_cases herr : ferror w1.in_file = true
        · rw [if_pos herr]
          refine ⟨ROTATE_READ_ERROR, w1, e0 :: pre, last, rfl, by rw [hpre, he0]; simp, hpre0,
            fun _ => rfl, fun h => absurd h hlw, ?_⟩
          intro hql hwerr
          have h1 := hln (ne_of_is_error_false last hql).1
          unfold ferror at herr
          rw [h1, herr0, hwerr] at herr
          exact absurd herr (by decide)
        · rw [if_neg herr]
          have hlast : is_error last = false :=
            is_error_false_of_ne last (fun h => herr (hlr h)) hlw
          have hpre1 : ∀ e ∈ e0 :: pre ++ [last], is_error e = false := by
            intro e he
            rcases List.mem_append.mp he with he | he
            · exact hpre0 e he
            · rw [List.mem_singleton.mp he]; exact hlast
          rcases fputc_out_event
            (bor (shl fb 1) (to_int8 (shr (to_int8 (fgetc_in w).1) 7))) w1
            with ⟨ht, htr⟩ | ⟨ht, e2, htr, he2⟩
          · rw [if_pos ht]
            exact ⟨ROTATE_WRITE_ERROR, _, e0 :: pre ++ [last], Event.write_error, rfl,
              by rw [htr, hpre, he0]; simp, hpre1, fun h => absurd h (by simp), fun _ => rfl,
              fun h => absurd h (by decide)⟩
          · rw [if_neg (by rw [ht]; decide)]
            exact ⟨ROTATE_SUCCESS, _, e0 :: pre ++ [last], e2, rfl,
              by rw [htr, hpre, he0]; simp, hpre1,
              fun h => absurd h (ne_of_is_error_false e2 he2).1,
              fun h => absurd h (ne_of_is_error_false e2 he2).2, fun _ _ => rfl⟩
    · -- RIGHT
      rcases fputc_out_event (to_int8 0) (fgetc_in w).2 with ⟨ht0, htr0⟩ | ⟨ht0, p0, htr0, hp0⟩
      · rw [if_pos ht0]
        refine ⟨ROTATE_WRITE_ERROR, _, [e0], Event.write_error, rfl, by rw [htr0, he0], ?_,
          fun h => absurd h (by simp), fun _ => rfl, fun h => absurd h (by decide)⟩
        intro e he
        rw [List.mem_singleton.mp he]; exact hq0
      · rw [if_neg (by rw [ht0]; decide)]
        obtain ⟨res, hres, hpost⟩ := right_loop_trace
          (loop_fuel (fputc_out (to_int8 0) (fgetc_in w).2).2)
          (to_int8 (fgetc_in w).1) (fputc_out (to_int8 0) (fgetc_in w).2).2 (hfuel _)
        rw [hres]
        have herr1 : (fputc_out (to_int8 0) (fgetc_in w).2).2.in_file.err = w.in_file.err := by
          rw [fputc_out_in_file]; exact herr0
        cases res with
        | returned code w1 =>
          obtain ⟨hcode, pre, hpre, hq⟩ := hpost
          refine ⟨code, w1, e0 :: p0 :: pre, Event.write_error, rfl,
            by rw [hpre, htr0, he0]; simp, ?_,
            fun h => absurd h (by simp), fun _ => hcode, fun h => absurd h (by decide)⟩
          intro e he
          rcases List.mem_cons.mp he with rfl | he
          · exact hq0
          · rcases List.mem_cons.mp he with rfl | he
            · exact hp0
            · exact hq e he
        | finished fb w1 =>
          obtain ⟨pre, last, hpre, hq, hlw, hlr, hln⟩ := hpost
          simp only []
          have hpre0 : ∀ e ∈ e0 :: p0 :: pre, is_error e = false := by
            intro e he
            rcases List.mem_cons.mp he with rfl | he
            · exact hq0
            · rcases List.mem_cons.mp he with rfl | he
              · exact hp0
              · exact hq e he
          by_cases herr : ferror w1.in_file = true
          · rw [if_pos herr]
            refine ⟨ROTATE_READ_ERROR, w1, e0 :: p0 :: pre, last, rfl,
              by rw [hpre, htr0, he0]; simp, hpre0,
              fun _ => rfl, fun h => absurd h hlw, ?_⟩
            intro hql hwerr
            have h1 := hln (ne_of_is_error_false last hql).1
            unfold ferror at herr
            rw [h1, herr1, hwerr] at herr
            exact absurd herr (by decide)
          · rw [if_neg herr]
            have hlast : is_error last = false :=
              is_error_false_of_ne last (fun h => herr (hlr h)) hlw
            obtain ⟨e3, he3, hw3, hr3, hn3⟩ := fgetc_in_event (rewind_in (rewind_out w1))
            have htr3 : (fgetc_in (rewind_in (rewind_out w1))).2.trace =
                w.trace ++ (e0 :: p0 :: pre ++ [last, Event.rewind_out, Event.rewind_in]) ++
                  [e3] := by
              rw [he3]
              show w1.trace ++ [Event.rewind_out] ++ [Event.rewind_in] ++ [e3] = _
              rw [hpre, htr0, he0]; simp
            have hpre2 : ∀ e ∈ e0 :: p0 :: pre ++ [last, Event.rewind_out, Event.rewind_in],
                is_error e = false := by
              intro e he
              rcases List.mem_append.mp he with he | he
              · exact hpre0 e he
              · simp only [List.mem_cons, List.mem_singleton, List.not_mem_nil,
                  or_false] at he
                rcases he with rfl | rfl | rfl
                · exact hlast
                · rfl
                · rfl
            by_cases hcond : (to_int8 (fgetc_in (rewind_in (rewind_out w1))).1 == EOF &&
                ferror (fgetc_in (rewind_in (rewind_out w1))).2.in_file) = true
            · rw [if_pos hcond]
              refine ⟨ROTATE_READ_ERROR, _, _, e3, rfl, htr3, hpre2, fun _ => rfl,
                fun h => absurd h hw3, ?_⟩
              intro hq3 _
              have h1 := hn3 (ne_of_is_error_false e3 hq3).1
              have h2 : ferror (fgetc_in (rewind_in (rewind_out w1))).2.in_file = true :=
                (Bool.and_eq_true _ _ ▸ hcond).2
              unfold ferror at h2
              rw [h1] at h2
              exact (Bool.false_ne_true h2).elim
            · rw [if_neg hcond]
              have hne3 : e3 ≠ Event.read_error := by
                intro h
                apply hcond
                rw [(hr3 h).2, to_int8_EOF]
                unfold ferror
                rw [(hr3 h).1]
                rfl
              have hq3 : is_error e3 = false := is_error_false_of_ne e3 hne3 hw3
              have hpre3 : ∀ e ∈ (e0 :: p0 :: pre ++
                  [last, Event.rewind_out, Event.rewind_in]) ++ [e3], is_error e = false := by
                intro e he
                rcases List.mem_append.mp he with he | he
                · exact hpre2 e he
                · rw [List.mem_singleton.mp he]; exact hq3
              rcases fputc_out_event
                (bor (to_int8 (shl fb 7))
                  (shr (to_int8 (fgetc_in (rewind_in (rewind_out w1))).1) 1))
                (fgetc_in (rewind_in (rewind_out w1))).2
                with ⟨ht, htr⟩ | ⟨ht, e4, htr, he4⟩
              · rw [if_pos ht]
                exact ⟨ROTATE_WRITE_ERROR, _, _, Event.write_error, rfl,
                  by rw [htr, htr3]; simp, hpre3, fun h => absurd h (by simp), fun _ => rfl,
                  fun h => absurd h (by decide)⟩
              · rw [if_neg (by rw [ht]; decide)]
                exact ⟨ROTATE_SUCCESS, _, _, e4, rfl,
                  by rw [htr, htr3]; simp, hpre3,
                  fun h => absurd h (ne_of_is_error_false e4 he4).1,
                  fun h => absurd h (ne_of_is_error_false e4 he4).2, fun _ _ => rfl⟩

/-- At most the last operation of a history `pre ++ [last]` whose earlier
operations reported no error can be the error `x`. -/
theorem error_event_is_last (pre : List Event) (last x : Event) (k : Nat)
    (hq : ∀ e ∈ pre, is_error e = false) (hx : is_error x = true)
    (hk : (pre ++ [last])[k]? = some x) :
    last = x ∧ (pre ++ [last]).length = k + 1 := by
  rcases Nat.lt_or_ge k pre.length with hlt | hge
  · rw [List.getElem?_append_left hlt] at hk
    have hmem : x ∈ pre := List.getElem?_mem hk
    rw [hq x hmem] at hx
    exact absurd hx (by decide)
  · rw [List.getElem?_append_right hge] at hk
    have hidx : k - pre.length = 0 := by
      by_contra h
      have h1 : 1 ≤ k - pre.length := Nat.one_le_iff_ne_zero.mpr h
      rw [List.getElem?_eq_none (by simpa using h1)] at hk
      exact absurd hk (by simp)
    rw [hidx] at hk
    refine ⟨by simpa using hk, ?_⟩
    rw [List.length_append, List.length_singleton]
    omega

/-- Claim C11 (read error after the first byte): in every direction and from every
world, `rotate_file` returns, and if operation number `k` of the run is a failed
read (for `k >= 1` a read after the first: a loop read, or the re-read after the
rewinds on RIGHT), then the return code is `ROTATE_READ_ERROR` and that read is
the last operation of the run, so that no write (nor anything else) follows
it. -/
theorem read_error_returns_read_error (direction : Int) (w : World) :
    ∃ code w' evs, rotate_file direction w = some (code, w') ∧
      w'.trace = w.trace ++ evs ∧
      ∀ k, evs[k]? = some Event.read_error →
        code = ROTATE_READ_ERROR ∧ evs.length = k + 1 ∧ ∀ j, k < j → evs[j]? = none := by
  obtain ⟨code, w', pre, last, hrun, htr, hq, hr, -, -⟩ := rotate_file_trace direction w
  refine ⟨code, w', pre ++ [last], hrun, by rw [htr, List.append_assoc], ?_⟩
  intro k hk
  obtain ⟨h1, h2⟩ := error_event_is_last pre last Event.read_error k hq rfl hk
  refine ⟨hr h1, h2, ?_⟩
  intro j hj
  exact List.getElem?_eq_none (by omega)

theorem read_error_returns_read_error_witness :
    (∃ code w' evs,
      rotate_file RIGHT (open_files [0x41, 0x42] (fun k => k == 3) no_fault) =
        some (code, w') ∧
      w'.trace = (open_files [0x41, 0x42] (fun k => k == 3) no_fault).trace ++ evs ∧
      ∀ k, evs[k]? = some Event.read_error →
        code = ROTATE_READ_ERROR ∧ evs.length = k + 1 ∧ ∀ j, k < j → evs[j]? = none) ∧
    (rotate_file RIGHT (open_files [0x41, 0x42] (fun k => k == 3) no_fault)).map
        (fun r => (r.1, r.2.trace, r.2.out_file.bytes)) =
      some (ROTATE_READ_ERROR,
        [Event.read_byte 0x41, Event.write 0 0x00, Event.read_byte 0x42,
          Event.write 1 0xA1, Event.read_eof, Event.rewind_out, Event.rewind_in,
          Event.read_error],
        [0x00, 0xA1]) ∧
    (rotate_file LEFT (open_files [0x41, 0x42] (fun k => k == 1) no_fault)).map
        (fun r => (r.1, r.2.trace, r.2.out_file.bytes)) =
      some (ROTATE_READ_ERROR, [Event.read_byte 0x41, Event.read_error], []) :=
  ⟨read_error_returns_read_error RIGHT (open_files [0x41, 0x42] (fun k => k == 3) no_fault),
    by decide, by decide⟩

/-- Claim C12 (write error): in every direction and from every world,
`rotate_file` returns, and if operation number `k` of the run is a failed write
(the placeholder or the patch of byte 0 on RIGHT, the final byte on LEFT, or a
loop write), then the return code is `ROTATE_WRITE_ERROR` and that write is the
last operation of the run: no read and no write follows it. -/
theorem write_error_returns_write_error (direction : Int) (w : World) :
    ∃ code w' evs, rotate_file direction w = some (code, w') ∧
      w'.trace = w.trace ++ evs ∧
      ∀ k, evs[k]? = some Event.write_error →
        code = ROTATE_WRITE_ERROR ∧ evs.length = k + 1 ∧ ∀ j, k < j → evs[j]? = none := by
  obtain ⟨code, w', pre, last, hrun, htr, hq, -, hw, -⟩ := rotate_file_trace direction w
  refine ⟨code, w', pre ++ [last], hrun, by rw [htr, List.append_assoc], ?_⟩
  intro k hk
  obtain ⟨h1, h2⟩ := error_event_is_last pre last Event.write_error k hq rfl hk
  refine ⟨hw h1, h2, ?_⟩
  intro j hj
  exact List.getElem?_eq_none (by omega)

theorem write_error_returns_write_error_witness :
    (∃ code w' evs,
      rotate_file RIGHT (open_files [0x41, 0x42] no_fault (fun k => k == 2)) =
        some (code, w') ∧
      w'.trace = (open_files [0x41, 0x42] no_fault (fun k => k == 2)).trace ++ evs ∧
      ∀ k, evs[k]? = some Event.write_error →
        code = ROTATE_WRITE_ERROR ∧ evs.length = k + 1 ∧ ∀ j, k < j → evs[j]? = none) ∧
    (rotate_file RIGHT (open_files [0x41, 0x42] no_fault (fun k => k == 2))).map
        (fun r => (r.1, r.2.trace, r.2.out_file.bytes)) =
      some (ROTATE_WRITE_ERROR,
        [Event.read_byte 0x41, Event.write 0 0x00, Event.read_byte 0x42,
          Event.write 1 0xA1, Event.read_eof, Event.rewind_out, Event.rewind_in,
          Event.read_byte 0x41, Event.write_error],
        [0x00, 0xA1]) ∧
    (rotate_file RIGHT (open_files [0x41, 0x42] no_fault (fun k => k == 0))).map
        (fun r => (r.1, r.2.trace)) =
      some (ROTATE_WRITE_ERROR, [Event.read_byte 0x41, Event.write_error]) ∧
    (rotate_file LEFT (open_files [0x41, 0x42] no_fault (fun k => k == 1))).map
        (fun r => (r.1, r.2.trace)) =
      some (ROTATE_WRITE_ERROR,
        [Event.read_byte 0x41, Event.read_byte 0x42, Event.write 0 0x82, Event.read_eof,
          Event.write_error]) :=
  ⟨write_error_returns_write_error RIGHT (open_files [0x41, 0x42] no_fault (fun k => k == 2)),
    by decide, by decide, by decide⟩

/-- Claim C13 (end-of-stream is not an error): in every direction and from every
world whose input stream has a clear error indicator, `rotate_file` returns,
and if no read and no write of the run reported a stream error then the return
code is `ROTATE_SUCCESS`. -/
theorem no_error_returns_success (direction : Int) (w : World)
    (herr : w.in_file.err = false) :
    ∃ code w' evs, rotate_file direction w = some (code, w') ∧
      w'.trace = w.trace ++ evs ∧
      (Event.read_error ∉ evs → Event.write_error ∉ evs → code = ROTATE_SUCCESS) := by
  obtain ⟨code, w', pre, last, hrun, htr, -, -, -, hs⟩ := rotate_file_trace direction w
  refine ⟨code, w', pre ++ [last], hrun, by rw [htr, List.append_assoc], ?_⟩
  intro h1 h2
  apply hs _ herr
  apply is_error_false_of_ne
  · intro h; exact h1 (by rw [← h]; simp)
  · intro h; exact h2 (by rw [← h]; simp)

theorem no_error_returns_success_witness :
    (open_files [0x41, 0x80, 0xFF, 0x42] no_fault no_fault).in_file.err = false ∧
    (∃ code w' evs,
      rotate_file LEFT (open_files [0x41, 0x80, 0xFF, 0x42] no_fault no_fault) =
        some (code, w') ∧
      w'.trace = (open_files [0x41, 0x80, 0xFF, 0x42] no_fault no_fault).trace ++ evs ∧
      (Event.read_error ∉ evs → Event.write_error ∉ evs → code = ROTATE_SUCCESS)) ∧
    (rotate_file LEFT (open_files [0x41, 0x80, 0xFF, 0x42] no_fault no_fault)).map
        (fun r => (r.1, r.2.trace)) =
      some (ROTATE_SUCCESS,
        [Event.read_byte 0x41, Event.read_byte 0x80, Event.write 0 0xFF,
          Event.read_byte 0xFF, Event.write 1 0x00]) :=
  ⟨rfl, no_error_returns_success LEFT
    (open_files [0x41, 0x80, 0xFF, 0x42] no_fault no_fault) rfl, by decide⟩

/-! ## Byte arithmetic of the two branches -/

set_option maxRecDepth 100000 in
theorem to_int8_ne_EOF : ∀ b : Byte, (to_int8 (b.val : Int) != EOF) = (b != 255) := by
  decide

theorem or_mod_256 (x y : Nat) : (x ||| y) % 256 = (x % 256) ||| (y % 256) := by
  apply Nat.eq_of_testBit_eq
  intro i
  have h : (256 : Nat) = 2 ^ 8 := by norm_num
  rw [h]
  simp only [Nat.testBit_mod_two_pow, Nat.testBit_or, Bool.and_or_distrib_left]

theorem to_uchar_val (z : Int) : (to_uchar z).val = (z % 256).toNat := rfl

theorem to_int_mod_256 (z : Int) : to_int z % 256 = z % 256 := by
  unfold to_int
  omega

theorem bor_mod_256 (x y : Int) :
    bor x y % 256 =
      (((x % 4294967296).toNat ||| (y % 4294967296).toNat : Nat) : Int) % 256 := by
  unfold bor
  rw [to_int_mod_256]
  rfl

/-- The byte `fputc` stores for `x | y` is the bitwise or of the low bytes of `x`
and `y`. -/
theorem to_uchar_bor (x y : Int) :
    (to_uchar (bor x y)).val = (x % 256).toNat ||| (y % 256).toNat := by
  have hg := or_mod_256 (x % 4294967296).toNat (y % 4294967296).toNat
  have hx : (x % 4294967296).toNat % 256 = (x % 256).toNat := by omega
  have hy : (y % 4294967296).toNat % 256 = (y % 256).toNat := by omega
  rw [hx, hy] at hg
  rw [← hg, to_uchar_val, bor_mod_256]
  generalize (x % 4294967296).toNat ||| (y % 4294967296).toNat = n
  omega

theorem to_uchar_to_int8 (z : Int) : to_uchar (to_int8 z) = to_uchar z := by
  apply Fin.ext
  rw [to_uchar_val, to_uchar_val]
  unfold to_int8
  omega

set_option maxRecDepth 100000 in
theorem low_byte_shl_1 : ∀ a : Byte,
    ((shl (to_int8 (a.val : Int)) 1) % 256).toNat = (a.val <<< 1) % 256 := by
  decide

set_option maxRecDepth 100000 in
theorem low_byte_shr_7 : ∀ b : Byte,
    ((shr (to_int8 (b.val : Int)) 7) % 256).toNat = if 128 ≤ b.val then 255 else 0 := by
  decide

set_option maxRecDepth 100000 in
theorem low_byte_carried_left : ∀ b : Byte,
    ((to_int8 (shr (to_int8 (b.val : Int)) 7)) % 256).toNat =
      if 128 ≤ b.val then 255 else 0 := by
  decide

set_option maxRecDepth 100000 in
theorem low_byte_shl_7 : ∀ a : Byte,
    ((shl (to_int8 (a.val : Int)) 7) % 256).toNat = (a.val <<< 7) % 256 := by
  decide

set_option maxRecDepth 100000 in
theorem low_byte_carried_right : ∀ a : Byte,
    ((to_int8 (shl (to_int8 (a.val : Int)) 7)) % 256).toNat = (a.val <<< 7) % 256 := by
  decide

set_option maxRecDepth 100000 in
theorem low_byte_shr_1 : ∀ b : Byte,
    ((shr (to_int8 (b.val : Int)) 1) % 256).toNat = (b.val >>> 1) ||| (b.val &&& 0x80) := by
  decide

set_option maxRecDepth 100000 in
theorem shl_1_or_255 : ∀ a : Byte, ((a.val <<< 1) % 256) ||| 255 = 255 := by
  decide

set_option maxRecDepth 100000 in
theorem shr_1_mod : ∀ b : Byte, (b.val >>> 1) % 256 = b.val >>> 1 := by
  decide

theorem left_byte_val (a b : Byte) :
    (left_byte a b).val = ((a.val <<< 1) % 256) ||| (if 128 ≤ b.val then 255 else 0) := by
  unfold left_byte
  split
  · rw [shl_1_or_255]; rfl
  · show ((a.val <<< 1) &&& 0xFF) % 256 = _
    have h := Nat.and_pow_two_sub_one_eq_mod (a.val <<< 1) 8
    have h255 : (2 : Nat) ^ 8 - 1 = 0xFF := by norm_num
    have h256 : (2 : Nat) ^ 8 = 256 := by norm_num
    rw [h255, h256] at h
    rw [h, Nat.mod_mod, Nat.or_zero]

theorem right_byte_val (a b : Byte) :
    (right_byte a b).val = ((a.val <<< 7) % 256) ||| ((b.val >>> 1) ||| (b.val &&& 0x80)) := by
  unfold right_byte
  show ((((a.val <<< 7) ||| (b.val >>> 1)) &&& 0xFF) ||| (b.val &&& 0x80)) % 256 = _
  have h255 : (0xFF : Nat) = 2 ^ 8 - 1 := by norm_num
  have h256 : (2 : Nat) ^ 8 = 256 := by norm_num
  have hb : (b.val &&& 0x80) % 256 = b.val &&& 0x80 :=
    Nat.mod_eq_of_lt (Nat.lt_of_le_of_lt Nat.and_le_right (by norm_num))
  rw [h255, Nat.and_pow_two_sub_one_eq_mod, h256, or_mod_256, Nat.mod_mod, or_mod_256,
    shr_1_mod, hb, Nat.or_assoc]

/-- The byte written by an iteration of the LEFT loop. -/
theorem left_loop_byte (a b : Byte) :
    to_uchar (to_int8 (bor (shl (to_int8 (a.val : Int)) 1) (shr (to_int8 (b.val : Int)) 7))) =
      left_byte a b := by
  apply Fin.ext
  rw [to_uchar_to_int8, to_uchar_bor, low_byte_shl_1, low_byte_shr_7, left_byte_val]

/-- The last byte written by the LEFT branch. -/
theorem left_final_byte (a b : Byte) :
    to_uchar (bor (shl (to_int8 (a.val : Int)) 1) (to_int8 (shr (to_int8 (b.val : Int)) 7))) =
      left_byte a b := by
  apply Fin.ext
  rw [to_uchar_bor, low_byte_shl_1, low_byte_carried_left, left_byte_val]

/-- The byte written by an iteration of the RIGHT loop. -/
theorem right_loop_byte (a b : Byte) :
    to_uchar (to_int8 (bor (shl (to_int8 (a.val : Int)) 7) (shr (to_int8 (b.val : Int)) 1))) =
      right_byte a b := by
  apply Fin.ext
  rw [to_uchar_to_int8, to_uchar_bor, low_byte_shl_7, low_byte_shr_1, right_byte_val]

/-- The byte the RIGHT branch stores over the placeholder. -/
theorem right_patch_byte (a b : Byte) :
    to_uchar (bor (to_int8 (shl (to_int8 (a.val : Int)) 7)) (shr (to_int8 (b.val : Int)) 1)) =
      right_byte a b := by
  apply Fin.ext
  rw [to_uchar_bor, low_byte_carried_right, low_byte_shr_1, right_byte_val]

/-! ## Runs without stream faults -/

theorem fgetc_in_byte (w : World) (b : Byte) (hf : w.in_file.fault w.in_file.ops = false)
    (hb : w.in_file.bytes[w.in_file.pos]? = some b) :
    fgetc_in w = ((b.val : Int), { w with
      in_file := { w.in_file with pos := w.in_file.pos + 1, ops := w.in_file.ops + 1 },
      trace := w.trace ++ [Event.read_byte b] }) := by
  unfold fgetc_in
  rw [hf, hb]
  rfl

theorem fgetc_in_end (w : World) (hf : w.in_file.fault w.in_file.ops = false)
    (hb : w.in_file.bytes[w.in_file.pos]? = none) :
    fgetc_in w = (EOF, { w with
      in_file := { w.in_file with ops := w.in_file.ops + 1 },
      trace := w.trace ++ [Event.read_eof] }) := by
  unfold fgetc_in
  rw [hf, hb]
  rfl

theorem fputc_out_ok (c : Int) (w : World) (hf : w.out_file.fault w.out_file.ops = false) :
    fputc_out c w = (((to_uchar c).val : Int), { w with
      out_file := { w.out_file with
        bytes := write_at w.out_file.bytes w.out_file.pos (to_uchar c),
        pos := w.out_file.pos + 1,
        ops := w.out_file.ops + 1 },
      trace := w.trace ++ [Event.write w.out_file.pos (to_uchar c)] }) := by
  unfold fputc_out
  rw [hf]
  rfl

theorem byte_ne_EOF (b : Byte) : ((b.val : Int) == EOF) = false := by
  rw [beq_eq_false_iff_ne]
  unfold EOF
  omega

theorem write_at_end (l : List Byte) (b : Byte) : write_at l l.length b = l ++ [b] := by
  unfold write_at
  rw [if_neg (Nat.lt_irrefl _), Nat.sub_self]
  simp

theorem drop_eq_cons {α : Type} (l : List α) (n : Nat) (b : α) (t : List α)
    (h : l.drop n = b :: t) : l[n]? = some b ∧ l.drop (n + 1) = t := by
  induction l generalizing n with
  | nil => simp at h
  | cons a l ih =>
    cases n with
    | zero =>
      simp only [List.drop_zero, List.cons.injEq] at h
      exact ⟨by simp [h.1], by simp [h.2]⟩
    | succ n =>
      simp only [List.drop_succ_cons] at h
      have := ih n h
      exact ⟨by simpa using this.1, by simpa using this.2⟩

theorem before_ff_cons_ff (b : Byte) (t : List Byte) (h : (b != 255) = false) :
    before_ff (b :: t) = [] := by
  unfold before_ff
  rw [List.takeWhile_cons, h]
  rfl

theorem before_ff_cons (b : Byte) (t : List Byte) (h : (b != 255) = true) :
    before_ff (b :: t) = b :: before_ff t := by
  unfold before_ff
  rw [List.takeWhile_cons, h]
  rfl

theorem fputc_out_test_ok (c : Int) (w : World)
    (hf : w.out_file.fault w.out_file.ops = false) :
    ((fputc_out c w).1 == EOF && ferror (fputc_out c w).2.out_file) = false := by
  rw [fputc_out_ok c w hf]
  simp only [byte_ne_EOF, Bool.false_and]

/-- A successful write at the end of the output file appends the byte and keeps
the position at the end; the input stream and the output fault schedule are
untouched. -/
theorem fputc_out_append (c : Int) (w : World)
    (hf : w.out_file.fault w.out_file.ops = false)
    (hpos : w.out_file.pos = w.out_file.bytes.length) :
    (fputc_out c w).2.out_file.bytes = w.out_file.bytes ++ [to_uchar c] ∧
      (fputc_out c w).2.out_file.pos = (fputc_out c w).2.out_file.bytes.length ∧
      (fputc_out c w).2.out_file.fault = w.out_file.fault := by
  rw [fputc_out_ok c w hf]
  simp only [hpos, write_at_end, List.length_append, List.length_singleton, and_self]

/-- A successful read of a byte: the value, and the input stream afterwards. -/
theorem fgetc_in_byte_facts (w : World) (b : Byte)
    (hf : w.in_file.fault w.in_file.ops = false)
    (hb : w.in_file.bytes[w.in_file.pos]? = some b) :
    (fgetc_in w).1 = (b.val : Int) ∧
      (fgetc_in w).2.in_file.pos = w.in_file.pos + 1 ∧
      (fgetc_in w).2.in_file.err = w.in_file.err ∧
      (fgetc_in w).2.in_file.fault = w.in_file.fault := by
  rw [fgetc_in_byte w b hf hb]
  exact ⟨rfl, rfl, rfl, rfl⟩

theorem fgetc_in_end_facts (w : World)
    (hf : w.in_file.fault w.in_file.ops = false)
    (hb : w.in_file.bytes[w.in_file.pos]? = none) :
    (fgetc_in w).1 = EOF ∧
      (fgetc_in w).2.in_file.err = w.in_file.err ∧
      (fgetc_in w).2.in_file.fault = w.in_file.fault := by
  rw [fgetc_in_end w hf hb]
  exact ⟨rfl, rfl, rfl⟩

theorem left_loop_run (rest : List Byte) : ∀ (prev : Byte) (w : World) (fuel : Nat),
    (∀ k, w.in_file.fault k = false) → (∀ k, w.out_file.fault k = false) →
    w.in_file.bytes.drop w.in_file.pos = rest →
    w.out_file.pos = w.out_file.bytes.length →
    rest.length < fuel →
    ∃ w1, left_loop fuel (to_int8 (prev.val : Int)) w =
        some (Loop.finished (to_int8 (((before_ff rest).getLastD prev).val : Int)) w1) ∧
      w1.out_file.bytes =
        w.out_file.bytes ++ List.zipWith left_byte (prev :: before_ff rest) (before_ff rest) ∧
      w1.out_file.pos = w1.out_file.bytes.length ∧
      (∀ k, w1.out_file.fault k = false) ∧
      w1.in_file.err = w.in_file.err ∧ w1.in_file.bytes = w.in_file.bytes ∧
      (∀ k, w1.in_file.fault k = false) := by
  induction rest with
  | nil =>
    intro prev w fuel hin hout hrest hpos hfuel
    cases fuel with
    | zero => omega
    | succ n =>
      have hnone : w.in_file.bytes[w.in_file.pos]? = none := by
        rw [List.getElem?_eq_none_iff]
        exact List.drop_eq_nil_iff.mp hrest
      obtain ⟨h1, h2, h3⟩ := fgetc_in_end_facts w (hin _) hnone
      unfold left_loop
      simp only [h1, to_int8_EOF, bne_self_eq_false, Bool.false_eq_true, if_false]
      refine ⟨(fgetc_in w).2, rfl, ?_, ?_, ?_, h2, fgetc_in_bytes w, ?_⟩
      · rw [fgetc_in_out_file]; simp [before_ff]
      · rw [fgetc_in_out_file]; exact hpos
      · rw [fgetc_in_out_file]; exact hout
      · rw [h3]; exact hin
  | cons b t ih =>
    intro prev w fuel hin hout hrest hpos hfuel
    cases fuel with
    | zero => omega
    | succ n =>
      obtain ⟨hb, hdrop⟩ := drop_eq_cons _ _ _ _ hrest
      obtain ⟨h1, h2, h3, h4⟩ := fgetc_in_byte_facts w b (hin _) hb
      unfold left_loop
      simp only [h1, to_int8_ne_EOF]
      cases hff : (b != 255) with
      | false =>
        simp only [Bool.false_eq_true, if_false]
        rw [before_ff_cons_ff b t hff]
        refine ⟨(fgetc_in w).2, rfl, ?_, ?_, ?_, h3, fgetc_in_bytes w, ?_⟩
        · rw [fgetc_in_out_file]; simp
        · rw [fgetc_in_out_file]; exact hpos
        · rw [fgetc_in_out_file]; exact hout
        · rw [h4]; exact hin
      | true =>
        have hfo : (fgetc_in w).2.out_file.fault (fgetc_in w).2.out_file.ops = false := by
          rw [fgetc_in_out_file]; exact hout _
        have hpo : (fgetc_in w).2.out_file.pos = (fgetc_in w).2.out_file.bytes.length := by
          rw [fgetc_in_out_file]; exact hpos
        simp only [if_true, fputc_out_test_ok _ _ hfo, Bool.false_eq_true, if_false]
        obtain ⟨ha, hb2, hc⟩ := fputc_out_append
          (to_int8 (bor (shl (to_int8 (prev.val : Int)) 1) (shr (to_int8 (b.val : Int)) 7)))
          (fgetc_in w).2 hfo hpo
        obtain ⟨w1, hrun, hbytes, hp1, hout1, herr1, hby1, hin1⟩ := ih b
          (fputc_out
            (to_int8 (bor (shl (to_int8 (prev.val : Int)) 1) (shr (to_int8 (b.val : Int)) 7)))
            (fgetc_in w).2).2 n
          (by rw [fputc_out_in_file, h4]; exact hin)
          (by rw [hc, fgetc_in_out_file]; exact hout)
          (by rw [fputc_out_in_file, h2, fgetc_in_bytes]; exact hdrop)
          hb2
          (by simpa using hfuel)
        refine ⟨w1, ?_, ?_, hp1, hout1, ?_, ?_, hin1⟩
        · rw [before_ff_cons b t hff, List.getLastD_cons]
          exact hrun
        · rw [hbytes, ha, left_loop_byte, fgetc_in_out_file, before_ff_cons b t hff]
          simp
        · rw [herr1, fputc_out_in_file, h3]
        · rw [hby1, fputc_out_in_file, fgetc_in_bytes]

theorem right_loop_run (rest : List Byte) : ∀ (prev : Byte) (w : World) (fuel : Nat),
    (∀ k, w.in_file.fault k = false) → (∀ k, w.out_file.fault k = false) →
    w.in_file.bytes.drop w.in_file.pos = rest →
    w.out_file.pos = w.out_file.bytes.length →
    rest.length < fuel →
    ∃ w1, right_loop fuel (to_int8 (prev.val : Int)) w =
        some (Loop.finished (to_int8 (((before_ff rest).getLastD prev).val : Int)) w1) ∧
      w1.out_file.bytes =
        w.out_file.bytes ++ List.zipWith right_byte (prev :: before_ff rest) (before_ff rest) ∧
      w1.out_file.pos = w1.out_file.bytes.length ∧
      (∀ k, w1.out_file.fault k = false) ∧
      w1.in_file.err = w.in_file.err ∧ w1.in_file.bytes = w.in_file.bytes ∧
      (∀ k, w1.in_file.fault k = false) := by
  induction rest with
  | nil =>
    intro prev w fuel hin hout hrest hpos hfuel
    cases fuel with
    | zero => omega
    | succ n =>
      have hnone : w.in_file.bytes[w.in_file.pos]? = none := by
        rw [List.getElem?_eq_none_iff]
        exact List.drop_eq_nil_iff.mp hrest
      obtain ⟨h1, h2, h3⟩ := fgetc_in_end_facts w (hin _) hnone
      unfold right_loop
      simp only [h1, to_int8_EOF, bne_self_eq_false, Bool.false_eq_true, if_false]
      refine ⟨(fgetc_in w).2, rfl, ?_, ?_, ?_, h2, fgetc_in_bytes w, ?_⟩
      · rw [fgetc_in_out_file]; simp [before_ff]
      · rw [fgetc_in_out_file]; exact hpos
      · rw [fgetc_in_out_file]; exact hout
      · rw [h3]; exact hin
  | cons b t ih =>
    intro prev w fuel hin hout hrest hpos hfuel
    cases fuel with
    | zero => omega
    | succ n =>
      obtain ⟨hb, hdrop⟩ := drop_eq_cons _ _ _ _ hrest
      obtain ⟨h1, h2, h3, h4⟩ := fgetc_in_byte_facts w b (hin _) hb
      unfold right_loop
      simp only [h1, to_int8_ne_EOF]
      cases hff : (b != 255) with
      | false =>
        simp only [Bool.false_eq_true, if_false]
        rw [before_ff_cons_ff b t hff]
        refine ⟨(fgetc_in w).2, rfl, ?_, ?_, ?_, h3, fgetc_in_bytes w, ?_⟩
        · rw [fgetc_in_out_file]; simp
        · rw [fgetc_in_out_file]; exact hpos
        · rw [fgetc_in_out_file]; exact hout
        · rw [h4]; exact hin
      | true =>
        have hfo : (fgetc_in w).2.out_file.fault (fgetc_in w).2.out_file.ops = false := by
          rw [fgetc_in_out_file]; exact hout _
        have hpo : (fgetc_in w).2.out_file.pos = (fgetc_in w).2.out_file.bytes.length := by
          rw [fgetc_in_out_file]; exact hpos
        simp only [if_true, fputc_out_test_ok _ _ hfo, Bool.false_eq_true, if_false]
        obtain ⟨ha, hb2, hc⟩ := fputc_out_append
          (to_int8 (bor (shl (to_int8 (prev.val : Int)) 7) (shr (to_int8 (b.val : Int)) 1)))
          (fgetc_in w).2 hfo hpo
        obtain ⟨w1, hrun, hbytes, hp1, hout1, herr1, hby1, hin1⟩ := ih b
          (fputc_out
            (to_int8 (bor (shl (to_int8 (prev.val : Int)) 7) (shr (to_int8 (b.val : Int)) 1)))
            (fgetc_in w).2).2 n
          (by rw [fputc_out_in_file, h4]; exact hin)
          (by rw [hc, fgetc_in_out_file]; exact hout)
          (by rw [fputc_out_in_file, h2, fgetc_in_bytes]; exact hdrop)
          hb2
          (by simpa using hfuel)
        refine ⟨w1, ?_, ?_, hp1, hout1, ?_, ?_, hin1⟩
        · rw [before_ff_cons b t hff, List.getLastD_cons]
          exact hrun
        · rw [hbytes, ha, right_loop_byte, fgetc_in_out_file, before_ff_cons b t hff]
          simp
        · rw [herr1, fputc_out_in_file, h3]
        · rw [hby1, fputc_out_in_file, fgetc_in_bytes]

set_option maxRecDepth 100000 in
theorem to_int8_beq_EOF : ∀ b : Byte, (to_int8 (b.val : Int) == EOF) = (b == 255) := by
  decide

theorem zipWith_snoc {α β : Type} (f : α → α → β) (p : List α) : ∀ (a c : α),
    List.zipWith f (a :: p) (p ++ [c]) = List.zipWith f (a :: p) p ++ [f (p.getLastD a) c] := by
  induction p with
  | nil => intro a c; rfl
  | cons x q ih =>
    intro a c
    have h := ih x c
    simp only [List.cons_append, List.zipWith_cons_cons, List.getLastD_cons] at h ⊢
    rw [h]

/-- A run of the LEFT branch without stream faults returns success and writes
`left_out` of the input bytes that precede the first `0xFF`. -/
theorem rotate_bytes_left (input : List Byte) :
    rotate_bytes LEFT input = some (ROTATE_SUCCESS, left_out (before_ff input)) := by
  cases input with
  | nil => decide
  | cons b0 t =>
    have hw : ∀ k, (open_files (b0 :: t) no_fault no_fault).in_file.fault k = false :=
      fun _ => rfl
    have hwo : ∀ k, (open_files (b0 :: t) no_fault no_fault).out_file.fault k = false :=
      fun _ => rfl
    obtain ⟨h1, h2, h3, h4⟩ := fgetc_in_byte_facts
      (open_files (b0 :: t) no_fault no_fault) b0 rfl
      (by show (b0 :: t)[0]? = some b0
          simp)
    have ho := fgetc_in_out_file (open_files (b0 :: t) no_fault no_fault)
    have hby := fgetc_in_bytes (open_files (b0 :: t) no_fault no_fault)
    unfold rotate_bytes rotate_file
    simp only [h1, to_int8_beq_EOF]
    cases hff : (b0 == 255) with
    | true =>
      have hne : (b0 != 255) = false := by simp [bne, hff]
      have herr : ferror (fgetc_in (open_files (b0 :: t) no_fault no_fault)).2.in_file =
          false := by unfold ferror; rw [h3]; rfl
      simp only [if_true, herr, Bool.false_eq_true, if_false, Option.map_some', ho,
        before_ff_cons_ff b0 t hne]
      rfl
    | false =>
      have hne : (b0 != 255) = true := by simp [bne, hff]
      have hd : (LEFT == LEFT) = true := by decide
      simp only [Bool.false_eq_true, if_false, hd, if_true]
      obtain ⟨w1, hrun, hbytes, hp1, hout1, herr1, hby1, hin1⟩ := left_loop_run t b0
        (fgetc_in (open_files (b0 :: t) no_fault no_fault)).2
        (loop_fuel (fgetc_in (open_files (b0 :: t) no_fault no_fault)).2)
        (by rw [h4]; exact hw) (by rw [ho]; exact hwo)
        (by rw [h2, hby]; rfl) (by rw [ho]; rfl)
        (by unfold loop_fuel; rw [h2, hby]; show t.length < (b0 :: t).length - (0 + 1) + 1
            simp)
      rw [hrun]
      have herr : ferror w1.in_file = false := by unfold ferror; rw [herr1, h3]; rfl
      simp only [herr, Bool.false_eq_true, if_false, fputc_out_test_ok _ w1 (hout1 _)]
      obtain ⟨ha, -, -⟩ := fputc_out_append
        (bor (shl (to_int8 (((before_ff t).getLastD b0).val : Int)) 1)
          (to_int8 (shr (to_int8 (b0.val : Int)) 7))) w1 (hout1 _) hp1
      simp only [Option.map_some', ha, hbytes, ho, left_final_byte,
        before_ff_cons b0 t hne, left_out, zipWith_snoc]
      rfl

theorem fputc_out_bytes (c : Int) (w : World)
    (hf : w.out_file.fault w.out_file.ops = false) :
    (fputc_out c w).2.out_file.bytes =
      write_at w.out_file.bytes w.out_file.pos (to_uchar c) := by
  rw [fputc_out_ok c w hf]

theorem write_at_zero (x y : Byte) (l : List Byte) : write_at (x :: l) 0 y = y :: l := by
  unfold write_at
  rw [if_pos (by simp)]
  rfl

/-- A run of the RIGHT branch without stream faults returns success and leaves
`right_out` of the input bytes that precede the first `0xFF` in the output. -/
theorem rotate_bytes_right (input : List Byte) :
    rotate_bytes RIGHT input = some (ROTATE_SUCCESS, right_out (before_ff input)) := by
  cases input with
  | nil => decide
  | cons b0 t =>
    have hw : ∀ k, (open_files (b0 :: t) no_fault no_fault).in_file.fault k = false :=
      fun _ => rfl
    have hwo : ∀ k, (open_files (b0 :: t) no_fault no_fault).out_file.fault k = false :=
      fun _ => rfl
    obtain ⟨h1, h2, h3, h4⟩ := fgetc_in_byte_facts
      (open_files (b0 :: t) no_fault no_fault) b0 rfl
      (by show (b0 :: t)[0]? = some b0
          simp)
    have ho := fgetc_in_out_file (open_files (b0 :: t) no_fault no_fault)
    have hby := fgetc_in_bytes (open_files (b0 :: t) no_fault no_fault)
    unfold rotate_bytes rotate_file
    simp only [h1, to_int8_beq_EOF]
    cases hff : (b0 == 255) with
    | true =>
      have hne : (b0 != 255) = false := by simp [bne, hff]
      have herr : ferror (fgetc_in (open_files (b0 :: t) no_fault no_fault)).2.in_file =
          false := by unfold ferror; rw [h3]; rfl
      simp only [if_true, herr, Bool.false_eq_true, if_false, Option.map_some', ho,
        before_ff_cons_ff b0 t hne]
      rfl
    | false =>
      have hne : (b0 != 255) = true := by simp [bne, hff]
      have hd : (RIGHT == LEFT) = false := by decide
      have hfo : (fgetc_in (open_files (b0 :: t) no_fault no_fault)).2.out_file.fault
          (fgetc_in (open_files (b0 :: t) no_fault no_fault)).2.out_file.ops = false := by
        rw [ho]; rfl
      simp only [Bool.false_eq_true, if_false, hd, fputc_out_test_ok _ _ hfo]
      obtain ⟨pa, pb, pc⟩ := fputc_out_append (to_int8 0)
        (fgetc_in (open_files (b0 :: t) no_fault no_fault)).2 hfo (by rw [ho]; rfl)
      obtain ⟨w1, hrun, hbytes, hp1, hout1, herr1, hby1, hin1⟩ := right_loop_run t b0
        (fputc_out (to_int8 0) (fgetc_in (open_files (b0 :: t) no_fault no_fault)).2).2
        (loop_fuel
          (fputc_out (to_int8 0) (fgetc_in (open_files (b0 :: t) no_fault no_fault)).2).2)
        (by rw [fputc_out_in_file, h4]; exact hw) (by rw [pc, ho]; exact hwo)
        (by rw [fputc_out_in_file, h2, hby]; rfl) pb
        (by unfold loop_fuel; rw [fputc_out_in_file, h2, hby]
            show t.length < (b0 :: t).length - (0 + 1) + 1
            simp)
      rw [hrun]
      have hin_bytes : w1.in_file.bytes = b0 :: t := by
        rw [hby1, fputc_out_in_file, hby]; rfl
      have herr : ferror w1.in_file = false := by
        unfold ferror; rw [herr1, fputc_out_in_file, h3]; rfl
      simp only [herr, Bool.false_eq_true, if_false]
      obtain ⟨g1, -, -, -⟩ := fgetc_in_byte_facts (rewind_in (rewind_out w1)) b0
        (hin1 _)
        (by show w1.in_file.bytes[0]? = some b0
            rw [hin_bytes]; simp)
      have go := fgetc_in_out_file (rewind_in (rewind_out w1))
      have hfo2 : (fgetc_in (rewind_in (rewind_out w1))).2.out_file.fault
          (fgetc_in (rewind_in (rewind_out w1))).2.out_file.ops = false := by
        rw [go]; exact hout1 _
      have hbytes2 := fputc_out_bytes
        (bor (to_int8 (shl (to_int8 (((before_ff t).getLastD b0).val : Int)) 7))
          (shr (to_int8 (b0.val : Int)) 1))
        (fgetc_in (rewind_in (rewind_out w1))).2 hfo2
      rw [go, right_patch_byte] at hbytes2
      have hout_bytes : (rewind_in (rewind_out w1)).out_file.bytes =
          to_uchar (to_int8 0) :: List.zipWith right_byte (b0 :: before_ff t) (before_ff t) := by
        show w1.out_file.bytes = _
        rw [hbytes, pa, ho]; rfl
      have hout_pos : (rewind_in (rewind_out w1)).out_file.pos = 0 := rfl
      rw [hout_bytes, hout_pos, write_at_zero] at hbytes2
      simp only [g1, to_int8_beq_EOF, hff, Bool.false_and, Bool.false_eq_true, if_false,
        fputc_out_test_ok _ _ hfo2, Option.map_some', hbytes2, before_ff_cons b0 t hne,
        right_out]
      rfl


/-! ## Byte `i` of the outputs -/

theorem zipWith_getD {α β γ : Type} (f : α → β → γ) (d1 : α) (d2 : β) (d : γ) :
    ∀ (l1 : List α) (l2 : List β) (i : Nat), i < l1.length → i < l2.length →
      (List.zipWith f l1 l2).getD i d = f (l1.getD i d1) (l2.getD i d2) := by
  intro l1
  induction l1 with
  | nil => intro l2 i h1 _; exact absurd h1 (Nat.not_lt_zero _)
  | cons a t ih =>
    intro l2 i h1 h2
    cases l2 with
    | nil => exact absurd h2 (Nat.not_lt_zero _)
    | cons b u =>
      cases i with
      | zero => rfl
      | succ j =>
        simp only [List.zipWith_cons_cons, List.getD_cons_succ]
        exact ih u j (Nat.lt_of_succ_lt_succ h1) (Nat.lt_of_succ_lt_succ h2)

theorem snoc_getD {α : Type} (a d : α) : ∀ (t : List α) (i : Nat), i < t.length + 1 →
    (t ++ [a]).getD i d = (a :: t).getD ((i + 1) % (t.length + 1)) d := by
  intro t i hi
  rcases Nat.lt_or_ge i t.length with hlt | hge
  · rw [Nat.mod_eq_of_lt (by omega), List.getD_cons_succ, List.getD_append _ _ _ _ hlt]
  · have hi2 : i = t.length := by omega
    subst hi2
    rw [Nat.mod_self, List.getD_cons_zero, List.getD_append_right _ _ _ _ (Nat.le_refl _),
      Nat.sub_self, List.getD_cons_zero]

theorem getLastD_eq_getD {α : Type} (d : α) : ∀ (t : List α) (a : α),
    t.getLastD a = (a :: t).getD t.length d := by
  intro t
  induction t with
  | nil => intro a; rfl
  | cons x q ih =>
    intro a
    rw [List.getLastD_cons, ih x]
    rfl

theorem cons_last_getD {α : Type} (d : α) (a : α) (t : List α) (i : Nat)
    (hi : i < t.length + 1) :
    (t.getLastD a :: a :: t).getD i d =
      (a :: t).getD ((i + (t.length + 1) - 1) % (t.length + 1)) d := by
  cases i with
  | zero =>
    rw [List.getD_cons_zero, getLastD_eq_getD d t a]
    have h : (0 + (t.length + 1) - 1) % (t.length + 1) = t.length := by
      rw [Nat.zero_add, Nat.add_sub_cancel]
      exact Nat.mod_eq_of_lt (Nat.lt_succ_self _)
    rw [h]
  | succ j =>
    rw [List.getD_cons_succ]
    have h : (j + 1 + (t.length + 1) - 1) % (t.length + 1) = j := by
      have e : j + 1 + (t.length + 1) - 1 = j + (t.length + 1) := by omega
      rw [e, Nat.add_mod_right]
      exact Nat.mod_eq_of_lt (by omega)
    rw [h]

theorem left_out_length (p : List Byte) : (left_out p).length = p.length := by
  cases p with
  | nil => rfl
  | cons a t => simp [left_out]

theorem right_out_length (p : List Byte) : (right_out p).length = p.length := by
  cases p with
  | nil => rfl
  | cons a t => simp [right_out]

/-- Byte `i` of `left_out p` comes from `p[i]` and `p[(i+1) mod N]`. -/
theorem left_out_getD (p : List Byte) (i : Nat) (hi : i < p.length) :
    (left_out p).getD i 0 =
      left_byte (p.getD i 0) (p.getD ((i + 1) % p.length) 0) := by
  cases p with
  | nil => exact absurd hi (Nat.not_lt_zero _)
  | cons a t =>
    have hi2 : i < t.length + 1 := hi
    show (List.zipWith left_byte (a :: t) (t ++ [a])).getD i 0 = _
    rw [zipWith_getD left_byte 0 0 0 _ _ i hi (by simpa using hi2), snoc_getD a 0 t i hi2]
    rfl

/-- Byte `i` of `right_out p` comes from `p[(i-1) mod N]` and `p[i]`. -/
theorem right_out_getD (p : List Byte) (i : Nat) (hi : i < p.length) :
    (right_out p).getD i 0 =
      right_byte (p.getD ((i + p.length - 1) % p.length) 0) (p.getD i 0) := by
  cases p with
  | nil => exact absurd hi (Nat.not_lt_zero _)
  | cons a t =>
    have hi2 : i < t.length + 1 := hi
    show (List.zipWith right_byte (t.getLastD a :: a :: t) (a :: t)).getD i 0 = _
    rw [zipWith_getD right_byte 0 0 0 _ _ i (by simp; omega) hi, cons_last_getD 0 a t i hi2]
    rfl

theorem spec_left_length (b : List Byte) : (spec_left b).length = b.length := by
  simp [spec_left]

theorem spec_right_length (b : List Byte) : (spec_right b).length = b.length := by
  simp [spec_right]

/-- Byte `i` of the specified LEFT rotation. -/
theorem spec_left_getD (b : List Byte) (i : Nat) (hi : i < b.length) :
    (spec_left b).getD i 0 =
      Fin.ofNat ((((b.getD i 0).val <<< 1) |||
        ((b.getD ((i + 1) % b.length) 0).val >>> 7)) &&& 0xFF) := by
  have hnext : (if i + 1 < b.length then b.getD (i + 1) 0 else b.getD 0 0) =
      b.getD ((i + 1) % b.length) 0 := by
    by_cases h : i + 1 < b.length
    · rw [if_pos h, Nat.mod_eq_of_lt h]
    · have e : i + 1 = b.length := by omega
      rw [if_neg h, e, Nat.mod_self]
  unfold spec_left
  rw [List.getD_eq_getElem?_getD, List.getElem?_map, List.getElem?_range hi]
  simp only [Option.map_some', Option.getD_some, hnext]

/-- Byte `i` of the specified RIGHT rotation. -/
theorem spec_right_getD (b : List Byte) (i : Nat) (hi : i < b.length) :
    (spec_right b).getD i 0 =
      Fin.ofNat ((((b.getD ((i + b.length - 1) % b.length) 0).val <<< 7) |||
        ((b.getD i 0).val >>> 1)) &&& 0xFF) := by
  have hprev : (if i = 0 then b.getD (b.length - 1) 0 else b.getD (i - 1) 0) =
      b.getD ((i + b.length - 1) % b.length) 0 := by
    by_cases h : i = 0
    · subst h
      rw [if_pos rfl, Nat.zero_add, Nat.mod_eq_of_lt (by omega)]
    · have e : i + b.length - 1 = (i - 1) + b.length := by omega
      rw [if_neg h, e, Nat.add_mod_right, Nat.mod_eq_of_lt (by omega)]
  unfold spec_right
  rw [List.getD_eq_getElem?_getD, List.getElem?_map, List.getElem?_range hi]
  simp only [Option.map_some', Option.getD_some, hprev]

/-- Two byte lists of the same length that agree at every index are equal. -/
theorem ext_getD (l1 l2 : List Byte) (hlen : l1.length = l2.length)
    (h : ∀ i, i < l1.length → l1.getD i 0 = l2.getD i 0) : l1 = l2 := by
  apply List.ext_getElem hlen
  intro i h1 h2
  have := h i h1
  rw [List.getD_eq_getElem _ _ h1, List.getD_eq_getElem _ _ h2] at this
  exact this

/-! ## Bytes without and with the top bit -/

set_option maxRecDepth 100000 in
theorem seven_bit_byte : ∀ b : Byte, b.val < 128 → b.val >>> 7 = 0 ∧ b.val &&& 0x80 = 0 := by
  decide

set_option maxRecDepth 100000 in
theorem top_bit_byte : ∀ b : Byte, 128 ≤ b.val → b.val >>> 7 = 1 ∧ b.val &&& 0x80 = 128 := by
  decide

theorem left_byte_seven_bit (a b : Byte) (hb : b.val < 128) :
    left_byte a b = Fin.ofNat ((((a.val <<< 1) ||| (b.val >>> 7))) &&& 0xFF) := by
  unfold left_byte
  rw [if_neg (by omega), (seven_bit_byte b hb).1, Nat.or_zero]

theorem right_byte_seven_bit (a b : Byte) (hb : b.val < 128) :
    right_byte a b = Fin.ofNat (((a.val <<< 7) ||| (b.val >>> 1)) &&& 0xFF) := by
  unfold right_byte
  rw [(seven_bit_byte b hb).2, Nat.or_zero]

theorem getD_mem (l : List Byte) (i : Nat) (hi : i < l.length) : l.getD i 0 ∈ l := by
  rw [List.getD_eq_getElem _ _ hi]
  exact List.getElem_mem hi

theorem before_ff_eq_self (l : List Byte) (h : ∀ b ∈ l, b ≠ 255) : before_ff l = l := by
  unfold before_ff
  rw [List.takeWhile_eq_self_iff]
  intro b hb
  have := h b hb
  simpa using this

theorem before_ff_idem (l : List Byte) : before_ff (before_ff l) = before_ff l := by
  apply before_ff_eq_self
  intro b hb
  unfold before_ff at hb
  have := List.mem_takeWhile_imp hb
  simpa using this

/-- The length of `before_ff l` is the index of the first `0xFF` byte of `l`, and
the length of `l` if there is none. -/
theorem before_ff_length (l : List Byte) :
    (before_ff l).length ≤ l.length ∧
      (∀ i, i < (before_ff l).length → l.getD i 0 ≠ 255 ∧ (before_ff l).getD i 0 = l.getD i 0) ∧
      ((before_ff l).length < l.length → l.getD (before_ff l).length 0 = 255) := by
  induction l with
  | nil => exact ⟨Nat.le_refl _, fun i hi => absurd hi (Nat.not_lt_zero _),
      fun h => absurd h (Nat.lt_irrefl _)⟩
  | cons b t ih =>
    cases hff : (b != 255) with
    | false =>
      rw [before_ff_cons_ff b t hff]
      refine ⟨Nat.zero_le _, fun i hi => absurd hi (Nat.not_lt_zero _), fun _ => ?_⟩
      show b = 255
      simpa using hff
    | true =>
      rw [before_ff_cons b t hff]
      obtain ⟨h1, h2, h3⟩ := ih
      refine ⟨Nat.succ_le_succ h1, ?_, ?_⟩
      · intro i hi
        cases i with
        | zero => exact ⟨by simpa using hff, rfl⟩
        | succ j => exact h2 j (Nat.lt_of_succ_lt_succ hi)
      · intro h
        exact h3 (Nat.lt_of_succ_lt_succ h)

/-! ## The claims on runs without stream faults -/

/-- Claim C16 (RIGHT write order) against the code: on the three input bytes
`0x41 0xFF 0x42`, with no stream faults, `rotate_file(RIGHT)` returns success
after writing the placeholder at offset 0 and then the patch at offset 0:
offsets 1 and 2 are never written, because the byte `0xFF` ends the read loop.
On the one-byte input `0xFF` it performs no write at all. -/
theorem right_writes_stop_at_ff :
    (rotate_file RIGHT (open_files [0x41, 0xFF, 0x42] no_fault no_fault)).map
        (fun r => (r.1, r.2.trace)) =
      some (ROTATE_SUCCESS,
        [Event.read_byte 0x41, Event.write 0 0x00, Event.read_byte 0xFF, Event.rewind_out,
          Event.rewind_in, Event.read_byte 0x41, Event.write 0 0xA0]) ∧
    (rotate_file RIGHT (open_files [0xFF] no_fault no_fault)).map
        (fun r => (r.1, r.2.trace)) =
      some (ROTATE_SUCCESS, [Event.read_byte 0xFF]) := by
  decide

theorem left_out_seven_bit (input : List Byte) (h : ∀ b ∈ input, b.val < 128) :
    left_out input = spec_left input := by
  apply ext_getD _ _ (by rw [left_out_length, spec_left_length])
  intro i hi
  rw [left_out_length] at hi
  rw [left_out_getD input i hi, spec_left_getD input i hi]
  apply left_byte_seven_bit
  exact h _ (getD_mem input _ (Nat.mod_lt _ (by omega)))

theorem right_out_seven_bit (input : List Byte) (h : ∀ b ∈ input, b.val < 128) :
    right_out input = spec_right input := by
  apply ext_getD _ _ (by rw [right_out_length, spec_right_length])
  intro i hi
  rw [right_out_length] at hi
  rw [right_out_getD input i hi, spec_right_getD input i hi]
  apply right_byte_seven_bit
  exact h _ (getD_mem input i hi)

/-- Claim C17 (conditional correctness on 7-bit input): for every input (of any
length, the empty one included) in which every byte is below `0x80`, and with
no stream faults, `rotate_file` returns success in both directions and the
output is the specified one-bit rotation of the input, which has as many bytes
as the input. -/
theorem seven_bit_input_rotates_correctly (input : List Byte)
    (h : ∀ b ∈ input, b.val < 128) :
    rotate_bytes LEFT input = some (ROTATE_SUCCESS, spec_left input) ∧
      rotate_bytes RIGHT input = some (ROTATE_SUCCESS, spec_right input) ∧
      (spec_left input).length = input.length ∧
      (spec_right input).length = input.length := by
  have hff : ∀ b ∈ input, b ≠ 255 := by
    intro b hb he
    have := h b hb
    rw [he] at this
    exact absurd this (by decide)
  refine ⟨?_, ?_, spec_left_length input, spec_right_length input⟩
  · rw [rotate_bytes_left, before_ff_eq_self input hff, left_out_seven_bit input h]
  · rw [rotate_bytes_right, before_ff_eq_self input hff, right_out_seven_bit input h]

set_option maxRecDepth 100000 in
theorem seven_bit_input_rotates_correctly_witness :
    (∀ b ∈ [(0x41 : Byte), 0x00, 0x7F], b.val < 128) ∧
    rotate_bytes LEFT [0x41, 0x00, 0x7F] = some (ROTATE_SUCCESS, [0x82, 0x00, 0xFE]) ∧
    rotate_bytes RIGHT [0x41, 0x00, 0x7F] = some (ROTATE_SUCCESS, [0xA0, 0x80, 0x3F]) :=
  ⟨by decide,
    (seven_bit_input_rotates_correctly [0x41, 0x00, 0x7F] (by decide)).1.trans (by decide),
    (seven_bit_input_rotates_correctly [0x41, 0x00, 0x7F] (by decide)).2.1.trans
      (by decide)⟩

/-- Claim C18 (`0xFF` is read as end-of-file): for every input and in both
directions, with no stream faults, `rotate_file` returns success and its output
is the output it produces on `before_ff input`, the longest prefix of the input
without a `0xFF` byte. The output length is the index of the first `0xFF` byte
of the input (the input length if there is none), and an input whose first
byte is `0xFF` yields an empty output. -/
theorem ff_is_read_as_end_of_file (input : List Byte) :
    (∃ out, rotate_bytes LEFT input = some (ROTATE_SUCCESS, out) ∧
      rotate_bytes LEFT (before_ff input) = some (ROTATE_SUCCESS, out) ∧
      out.length = (before_ff input).length ∧ (input.head? = some 255 → out = [])) ∧
    (∃ out, rotate_bytes RIGHT input = some (ROTATE_SUCCESS, out) ∧
      rotate_bytes RIGHT (before_ff input) = some (ROTATE_SUCCESS, out) ∧
      out.length = (before_ff input).length ∧ (input.head? = some 255 → out = [])) ∧
    before_ff input <+: input ∧ (∀ b ∈ before_ff input, b ≠ 255) ∧
    (before_ff input).length ≤ input.length ∧
    (∀ i, i < (before_ff input).length → input.getD i 0 ≠ 255) ∧
    ((before_ff input).length < input.length →
      input.getD (before_ff input).length 0 = 255) := by
  have hhead : input.head? = some 255 → before_ff input = [] := by
    intro hh
    cases input with
    | nil => rfl
    | cons b t =>
      have hb : b = 255 := by simpa using hh
      exact before_ff_cons_ff b t (by rw [hb]; decide)
  have hmem : ∀ b ∈ before_ff input, b ≠ 255 := by
    intro b hb
    unfold before_ff at hb
    have := List.mem_takeWhile_imp hb
    simpa using this
  obtain ⟨h1, h2, h3⟩ := before_ff_length input
  refine ⟨⟨left_out (before_ff input), rotate_bytes_left input, ?_, left_out_length _, ?_⟩,
    ⟨right_out (before_ff input), rotate_bytes_right input, ?_, right_out_length _, ?_⟩,
    List.takeWhile_prefix _, hmem, h1, fun i hi => (h2 i hi).1, h3⟩
  · rw [rotate_bytes_left, before_ff_idem]
  · intro hh; rw [hhead hh]; rfl
  · rw [rotate_bytes_right, before_ff_idem]
  · intro hh; rw [hhead hh]; rfl

set_option maxRecDepth 100000 in
theorem left_byte_differs : ∀ a : Byte, a ≠ 255 →
    ((255 : Byte) ≠ Fin.ofNat (((a.val <<< 1) ||| 1) &&& 0xFF) ↔ a ≠ 0x7F) := by
  decide

/-- Claim C19 (LEFT sign-extension characterisation): for every input without a
`0xFF` byte, and with no stream faults, `rotate_file(LEFT)` returns success
with an output of the input's length whose byte `i` is `0xFF` when
`b[(i+1) mod N] >= 0x80` and `(b[i] << 1) & 0xFF` otherwise. When
`b[(i+1) mod N] >= 0x80` the specified byte is `((b[i] << 1) | 1) & 0xFF`, and
the output byte differs from the specified byte exactly when
`b[(i+1) mod N] >= 0x80` and `b[i] != 0x7F`. -/
theorem left_output_sign_extension (input : List Byte) (hff : ∀ b ∈ input, b ≠ 255) :
    ∃ out, rotate_bytes LEFT input = some (ROTATE_SUCCESS, out) ∧
      out.length = input.length ∧
      ∀ i, i < input.length →
        (128 ≤ (input.getD ((i + 1) % input.length) 0).val →
          out.getD i 0 = 255 ∧
          (spec_left input).getD i 0 =
            Fin.ofNat ((((input.getD i 0).val <<< 1) ||| 1) &&& 0xFF)) ∧
        ((input.getD ((i + 1) % input.length) 0).val < 128 →
          out.getD i 0 = Fin.ofNat (((input.getD i 0).val <<< 1) &&& 0xFF)) ∧
        (out.getD i 0 ≠ (spec_left input).getD i 0 ↔
          128 ≤ (input.getD ((i + 1) % input.length) 0).val ∧ input.getD i 0 ≠ 0x7F) := by
  refine ⟨left_out input, ?_, left_out_length input, ?_⟩
  · rw [rotate_bytes_left, before_ff_eq_self input hff]
  · intro i hi
    have ha : input.getD i 0 ≠ 255 := hff _ (getD_mem input i hi)
    rw [left_out_getD input i hi, spec_left_getD input i hi]
    generalize input.getD i 0 = a at ha ⊢
    generalize input.getD ((i + 1) % input.length) 0 = b
    rcases Nat.lt_or_ge b.val 128 with hb | hb
    · refine ⟨fun h => absurd hb (by omega), fun _ => ?_, ?_⟩
      · unfold left_byte
        rw [if_neg (by omega)]
      · rw [left_byte_seven_bit a b hb]
        constructor
        · intro h; exact absurd rfl h
        · rintro ⟨h, -⟩; exact absurd hb (by omega)
    · have hl : left_byte a b = 255 := by
        unfold left_byte
        rw [if_pos hb]
      rw [hl, (top_bit_byte b hb).1]
      refine ⟨fun _ => ⟨rfl, rfl⟩, fun h => absurd h (by omega), ?_⟩
      rw [left_byte_differs a ha]
      exact ⟨fun h => ⟨hb, h⟩, fun h => h.2⟩

set_option maxRecDepth 100000 in
theorem left_output_sign_extension_witness :
    (∀ b ∈ [(0x81 : Byte), 0x00, 0x7F], b ≠ 255) ∧
    rotate_bytes LEFT [0x81, 0x00, 0x7F] = some (ROTATE_SUCCESS, [0x02, 0x00, 0xFF]) ∧
    spec_left [0x81, 0x00, 0x7F] = [0x02, 0x00, 0xFF] ∧
    rotate_bytes LEFT [0x00, 0x80] = some (ROTATE_SUCCESS, [0xFF, 0x00]) ∧
    spec_left [0x00, 0x80] = [0x01, 0x00] ∧
    ∃ out, rotate_bytes LEFT [0x00, 0x80] = some (ROTATE_SUCCESS, out) ∧
      out.length = [(0x00 : Byte), 0x80].length ∧
      ∀ i, i < [(0x00 : Byte), 0x80].length →
        (128 ≤ ([(0x00 : Byte), 0x80].getD ((i + 1) % [(0x00 : Byte), 0x80].length) 0).val →
          out.getD i 0 = 255 ∧
          (spec_left [0x00, 0x80]).getD i 0 =
            Fin.ofNat (((([(0x00 : Byte), 0x80].getD i 0).val <<< 1) ||| 1) &&& 0xFF)) ∧
        (([(0x00 : Byte), 0x80].getD ((i + 1) % [(0x00 : Byte), 0x80].length) 0).val < 128 →
          out.getD i 0 = Fin.ofNat ((([(0x00 : Byte), 0x80].getD i 0).val <<< 1) &&& 0xFF)) ∧
        (out.getD i 0 ≠ (spec_left [0x00, 0x80]).getD i 0 ↔
          128 ≤ ([(0x00 : Byte), 0x80].getD ((i + 1) % [(0x00 : Byte), 0x80].length) 0).val ∧
            [(0x00 : Byte), 0x80].getD i 0 ≠ 0x7F) :=
  ⟨by decide, by decide, by decide, by decide, by decide,
    left_output_sign_extension [0x00, 0x80] (by decide)⟩

/-! ### RIGHT -/

theorem spec_right_byte_val (a b : Byte) :
    (Fin.ofNat (((a.val <<< 7) ||| (b.val >>> 1)) &&& 0xFF) : Byte).val =
      ((a.val <<< 7) % 256) ||| (b.val >>> 1) := by
  show ((((a.val <<< 7) ||| (b.val >>> 1)) &&& 0xFF)) % 256 = _
  have h255 : (0xFF : Nat) = 2 ^ 8 - 1 := by norm_num
  have h256 : (2 : Nat) ^ 8 = 256 := by norm_num
  rw [h255, Nat.and_pow_two_sub_one_eq_mod, h256, Nat.mod_mod, or_mod_256, shr_1_mod]

/-- The byte the code produces is the specified byte with the top bit of `b`
or-ed in. -/
theorem right_byte_eq_spec_or (a b : Byte) :
    (right_byte a b).val =
      (Fin.ofNat (((a.val <<< 7) ||| (b.val >>> 1)) &&& 0xFF) : Byte).val |||
        (b.val &&& 0x80) := by
  rw [right_byte_val, spec_right_byte_val, Nat.or_assoc]

set_option maxRecDepth 100000 in
theorem shl_7_mod : ∀ a : Byte,
    (a.val <<< 7) % 256 = if a.val % 2 = 1 then 128 else 0 := by
  decide

set_option maxRecDepth 100000 in
theorem or_128_odd : ∀ b : Byte,
    (128 ||| (b.val >>> 1)) ||| 128 = 128 ||| (b.val >>> 1) := by
  decide

set_option maxRecDepth 100000 in
theorem or_128_even : ∀ b : Byte,
    (0 ||| (b.val >>> 1)) ||| 128 ≠ 0 ||| (b.val >>> 1) := by
  decide

/-- The byte the code produces is the specified one exactly when `b` has no top
bit or the preceding byte `a` is odd. -/
theorem right_byte_eq_spec_iff (a b : Byte) :
    right_byte a b = Fin.ofNat (((a.val <<< 7) ||| (b.val >>> 1)) &&& 0xFF) ↔
      (128 ≤ b.val → a.val % 2 = 1) := by
  rcases Nat.lt_or_ge b.val 128 with hb | hb
  · rw [right_byte_seven_bit a b hb]
    exact ⟨fun _ h => absurd hb (by omega), fun _ => rfl⟩
  · rw [Fin.ext_iff, right_byte_eq_spec_or, spec_right_byte_val, (top_bit_byte b hb).2,
      shl_7_mod]
    by_cases ha : a.val % 2 = 1
    · rw [if_pos ha]
      exact ⟨fun _ _ => ha, fun _ => or_128_odd b⟩
    · rw [if_neg ha]
      exact ⟨fun h => absurd h (or_128_even b), fun h => absurd (h hb) ha⟩

/-- Claim C20 (RIGHT sign-extension characterisation): for every input without a
`0xFF` byte, and with no stream faults, `rotate_file(RIGHT)` returns success
with an output of the input's length whose byte `i` is `s[i] | (b[i] & 0x80)`,
`s` being the specified right rotation; the output is the specified one
exactly when, for every `i` with `b[i] >= 0x80`, the byte before it
(cyclically) is odd. -/
theorem right_output_sign_extension (input : List Byte) (hff : ∀ b ∈ input, b ≠ 255) :
    ∃ out, rotate_bytes RIGHT input = some (ROTATE_SUCCESS, out) ∧
      out.length = input.length ∧
      (∀ i, i < input.length →
        (out.getD i 0).val =
          ((spec_right input).getD i 0).val ||| ((input.getD i 0).val &&& 0x80)) ∧
      (out = spec_right input ↔
        ∀ i, i < input.length → 128 ≤ (input.getD i 0).val →
          (input.getD ((i + input.length - 1) % input.length) 0).val % 2 = 1) := by
  refine ⟨right_out input, ?_, right_out_length input, ?_, ?_⟩
  · rw [rotate_bytes_right, before_ff_eq_self input hff]
  · intro i hi
    rw [right_out_getD input i hi, spec_right_getD input i hi, right_byte_eq_spec_or]
  · constructor
    · intro h i hi
      have h1 := congrArg (fun l => l.getD i 0) h
      simp only at h1
      rw [right_out_getD input i hi, spec_right_getD input i hi] at h1
      exact (right_byte_eq_spec_iff _ _).mp h1
    · intro h
      apply ext_getD _ _ (by rw [right_out_length, spec_right_length])
      intro i hi
      rw [right_out_length] at hi
      rw [right_out_getD input i hi, spec_right_getD input i hi]
      exact (right_byte_eq_spec_iff _ _).mpr (h i hi)

set_option maxRecDepth 100000 in
theorem right_output_sign_extension_witness :
    (∀ b ∈ [(0x01 : Byte), 0x80, 0x00], b ≠ 255) ∧
    rotate_bytes RIGHT [0x01, 0x80, 0x00] = some (ROTATE_SUCCESS, [0x00, 0xC0, 0x00]) ∧
    spec_right [0x01, 0x80, 0x00] = [0x00, 0xC0, 0x00] ∧
    rotate_bytes RIGHT [0x00, 0x80] = some (ROTATE_SUCCESS, [0x00, 0xC0]) ∧
    spec_right [0x00, 0x80] = [0x00, 0x40] ∧
    ∃ out, rotate_bytes RIGHT [0x00, 0x80] = some (ROTATE_SUCCESS, out) ∧
      out.length = [(0x00 : Byte), 0x80].length ∧
      (∀ i, i < [(0x00 : Byte), 0x80].length →
        (out.getD i 0).val =
          ((spec_right [0x00, 0x80]).getD i 0).val |||
            (([(0x00 : Byte), 0x80].getD i 0).val &&& 0x80)) ∧
      (out = spec_right [0x00, 0x80] ↔
        ∀ i, i < [(0x00 : Byte), 0x80].length →
          128 ≤ ([(0x00 : Byte), 0x80].getD i 0).val →
          ([(0x00 : Byte), 0x80].getD
            ((i + [(0x00 : Byte), 0x80].length - 1) % [(0x00 : Byte), 0x80].length) 0).val % 2 =
              1) :=
  ⟨by decide, by decide, by decide, by decide, by decide,
    right_output_sign_extension [0x00, 0x80] (by decide)⟩

end Rotate
